import Mathlib

/-!
Verification of the Yenta test-runner core against its specification.

The development shallowly embeds the parts of the code that the claims
touch: JSON-like payload values and their `json.dumps` serialization, the
in-memory mock registry (`yenta/mocks.py`), the test-case execution and
validation logic (`yenta/__init__.py`, `RunMCPTestsNode.exec_async`), the
parameter mapper (`yenta/workflow_nodes.py`, `MCPNode`), the retry
controller (`yenta/retry_logic.py`), the custom nodes
(`yenta/custom_nodes.py`), the workflow parser helpers
(`yenta/parser.py`) and the graph builder
(`yenta/workflow_flow.py`).
-/

namespace Yenta

/-- JSON-like values: the model of the Python dict/list/str/int/bool/None
payloads that flow through the test runner (arguments, responses, shared
state).  JSON numbers are modelled as integers. -/
inductive JVal where
  | null : JVal
  | bool (b : Bool) : JVal
  | num (n : Int) : JVal
  | str (s : String) : JVal
  | arr (xs : List JVal) : JVal
  | obj (fields : List (String × JVal)) : JVal
deriving Repr

mutual

/-- Decidable equality for values, written out because deriving cannot
handle the nested occurrence of `List`. -/
def decEqJ : (a b : JVal) → Decidable (a = b)
  | .null, .null => .isTrue rfl
  | .bool a, .bool b =>
    if h : a = b then .isTrue (by rw [h])
    else .isFalse fun hh => h (JVal.bool.inj hh)
  | .num a, .num b =>
    if h : a = b then .isTrue (by rw [h])
    else .isFalse fun hh => h (JVal.num.inj hh)
  | .str a, .str b =>
    if h : a = b then .isTrue (by rw [h])
    else .isFalse fun hh => h (JVal.str.inj hh)
  | .arr a, .arr b =>
    match decEqJList a b with
    | .isTrue h => .isTrue (by rw [h])
    | .isFalse h => .isFalse fun hh => h (JVal.arr.inj hh)
  | .obj a, .obj b =>
    match decEqJFields a b with
    | .isTrue h => .isTrue (by rw [h])
    | .isFalse h => .isFalse fun hh => h (JVal.obj.inj hh)
  | .null, .bool _ => .isFalse fun h => nomatch h
  | .null, .num _ => .isFalse fun h => nomatch h
  | .null, .str _ => .isFalse fun h => nomatch h
  | .null, .arr _ => .isFalse fun h => nomatch h
  | .null, .obj _ => .isFalse fun h => nomatch h
  | .bool _, .null => .isFalse fun h => nomatch h
  | .bool _, .num _ => .isFalse fun h => nomatch h
  | .bool _, .str _ => .isFalse fun h => nomatch h
  | .bool _, .arr _ => .isFalse fun h => nomatch h
  | .bool _, .obj _ => .isFalse fun h => nomatch h
  | .num _, .null => .isFalse fun h => nomatch h
  | .num _, .bool _ => .isFalse fun h => nomatch h
  | .num _, .str _ => .isFalse fun h => nomatch h
  | .num _, .arr _ => .isFalse fun h => nomatch h
  | .num _, .obj _ => .isFalse fun h => nomatch h
  | .str _, .null => .isFalse fun h => nomatch h
  | .str _, .bool _ => .isFalse fun h => nomatch h
  | .str _, .num _ => .isFalse fun h => nomatch h
  | .str _, .arr _ => .isFalse fun h => nomatch h
  | .str _, .obj _ => .isFalse fun h => nomatch h
  | .arr _, .null => .isFalse fun h => nomatch h
  | .arr _, .bool _ => .isFalse fun h => nomatch h
  | .arr _, .num _ => .isFalse fun h => nomatch h
  | .arr _, .str _ => .isFalse fun h => nomatch h
  | .arr _, .obj _ => .isFalse fun h => nomatch h
  | .obj _, .null => .isFalse fun h => nomatch h
  | .obj _, .bool _ => .isFalse fun h => nomatch h
  | .obj _, .num _ => .isFalse fun h => nomatch h
  | .obj _, .str _ => .isFalse fun h => nomatch h
  | .obj _, .arr _ => .isFalse fun h => nomatch h

/-- Decidable equality for value lists. -/
def decEqJList : (a b : List JVal) → Decidable (a = b)
  | [], [] => .isTrue rfl
  | [], _ :: _ => .isFalse fun h => nomatch h
  | _ :: _, [] => .isFalse fun h => nomatch h
  | x :: xs, y :: ys =>
    match decEqJ x y, decEqJList xs ys with
    | .isTrue h1, .isTrue h2 => .isTrue (by rw [h1, h2])
    | .isFalse h1, _ => .isFalse fun hh => h1 (List.cons.inj hh).1
    | _, .isFalse h2 => .isFalse fun hh => h2 (List.cons.inj hh).2

/-- Decidable equality for field lists. -/
def decEqJFields : (a b : List (String × JVal)) → Decidable (a = b)
  | [], [] => .isTrue rfl
  | [], _ :: _ => .isFalse fun h => nomatch h
  | _ :: _, [] => .isFalse fun h => nomatch h
  | (k, v) :: xs, (l, w) :: ys =>
    match String.decEq k l, decEqJ v w, decEqJFields xs ys with
    | .isTrue h0, .isTrue h1, .isTrue h2 => .isTrue (by rw [h0, h1, h2])
    | .isFalse h0, _, _ =>
      .isFalse fun hh => h0 (congrArg Prod.fst (List.cons.inj hh).1)
    | _, .isFalse h1, _ =>
      .isFalse fun hh => h1 (congrArg Prod.snd (List.cons.inj hh).1)
    | _, _, .isFalse h2 => .isFalse fun hh => h2 (List.cons.inj hh).2

end

instance : DecidableEq JVal := decEqJ

/-- Left curly brace character (written via its code point). -/
def obChar : Char := Char.ofNat 123

/-- Right curly brace character (written via its code point). -/
def cbChar : Char := Char.ofNat 125

/-- Model of the `json.dumps` escaping of one character inside a string
literal: quote and backslash are escaped with a backslash, every other
character is kept as written (the `\uXXXX` escaping of control and
non-ASCII characters is elided; it does not change which strings collide). -/
def escChar (c : Char) : List Char :=
  if c = '"' ∨ c = '\\' then ['\\', c] else [c]

/-- Escape a whole string (as a character list). -/
def escList : List Char → List Char
  | [] => []
  | c :: cs => escChar c ++ escList cs

/-- The character of a decimal digit. -/
def digitChar (d : Nat) : Char := Char.ofNat (48 + d)

/-- Decimal digits of `n`, most significant first, with enough fuel
(fuel-based so that the kernel can evaluate it). -/
def natCharsAux : Nat → Nat → List Char
  | 0, _ => []
  | fuel + 1, n =>
    if n = 0 then [] else natCharsAux fuel (n / 10) ++ [digitChar (n % 10)]

/-- Decimal digits of `n`, most significant first (the `json.dumps` integer
format). -/
def natChars (n : Nat) : List Char :=
  if n = 0 then ['0'] else natCharsAux n n

/-- `json.dumps` rendering of an integer. -/
def intChars : Int → List Char
  | .ofNat n => natChars n
  | .negSucc m => '-' :: natChars (m + 1)

/-- The rendering of an object key followed by `": "`. -/
def keyChars (k : String) : List Char :=
  '"' :: (escList k.data ++ ['"', ':', ' '])

mutual

/-- Model of Python `json.dumps` with the default separators
(`", "` and `": "`), producing a character list. -/
def emit : JVal → List Char
  | .null => "null".data
  | .bool true => "true".data
  | .bool false => "false".data
  | .num n => intChars n
  | .str s => '"' :: (escList s.data ++ ['"'])
  | .arr xs => '[' :: (emitList xs ++ [']'])
  | .obj fs => obChar :: (emitFields fs ++ [cbChar])

/-- Array items, separated by `", "`. -/
def emitList : List JVal → List Char
  | [] => []
  | x :: xs => emit x ++ emitListRest xs

/-- Array items after the first, each preceded by `", "`. -/
def emitListRest : List JVal → List Char
  | [] => []
  | x :: xs => ',' :: ' ' :: (emit x ++ emitListRest xs)

/-- Object fields, separated by `", "`. -/
def emitFields : List (String × JVal) → List Char
  | [] => []
  | (k, v) :: fs => keyChars k ++ (emit v ++ emitFieldsRest fs)

/-- Object fields after the first, each preceded by `", "`. -/
def emitFieldsRest : List (String × JVal) → List Char
  | [] => []
  | (k, v) :: fs => ',' :: ' ' :: (keyChars k ++ (emit v ++ emitFieldsRest fs))

end

/-- Lexicographic comparison of character lists by code point: the model of
Python string comparison, which `sorted` and `sort_keys=True` use. -/
def lexLe : List Char → List Char → Bool
  | [], _ => true
  | a :: as, b :: bs =>
    if a.toNat < b.toNat then true
    else if b.toNat < a.toNat then false
    else lexLe as bs
  | _ :: _, [] => false

/-- Python string `<=`. -/
def strLe (a b : String) : Bool := lexLe a.data b.data

/-- Insert a field into a key-sorted field list (insertion-sort step, the
model of `sort_keys=True` ordering). -/
def insField (p : String × JVal) : List (String × JVal) → List (String × JVal)
  | [] => [p]
  | q :: qs => if strLe p.1 q.1 then p :: q :: qs else q :: insField p qs

/-- Sort an object's fields by key (insertion sort). -/
def sortFields : List (String × JVal) → List (String × JVal)
  | [] => []
  | p :: ps => insField p (sortFields ps)

mutual

/-- Canonical form of a value: every object's fields sorted by key at every
level.  `json.dumps(v, sort_keys=True)` is `json.dumps` of the canonical
form. -/
def canon : JVal → JVal
  | .null => .null
  | .bool b => .bool b
  | .num n => .num n
  | .str s => .str s
  | .arr xs => .arr (canonList xs)
  | .obj fs => .obj (sortFields (canonFields fs))

/-- Canonicalize every element of an array. -/
def canonList : List JVal → List JVal
  | [] => []
  | x :: xs => canon x :: canonList xs

/-- Canonicalize every value of a field list. -/
def canonFields : List (String × JVal) → List (String × JVal)
  | [] => []
  | (k, v) :: fs => (k, canon v) :: canonFields fs

end

/-- Model of `json.dumps(v, ensure_ascii=False)` (insertion order kept). -/
def dumps (v : JVal) : String := String.mk (emit v)

/-- Model of `json.dumps(v, sort_keys=True)`: keys sorted at every level. -/
def dumpsSorted (v : JVal) : String := String.mk (emit (canon v))

/-- Python dict lookup (`d.get(k)`) on a string-keyed dict. -/
def dictGet (k : String) : List (String × JVal) → Option JVal
  | [] => none
  | (k', v) :: rest => if k' = k then some v else dictGet k rest

/-- Python dict assignment (`d[k] = v`): replace in place, else append. -/
def dictSet (k : String) (v : JVal) : List (String × JVal) → List (String × JVal)
  | [] => [(k, v)]
  | (k', v') :: rest => if k' = k then (k, v) :: rest else (k', v') :: dictSet k v rest

namespace MockRegistry

/-- `MockRegistry.get_mock_key` (yenta/mocks.py): the canonical JSON of the
dict with the tool name and the call arguments, via
`json.dumps(..., sort_keys=True)`. -/
def get_mock_key (tool : String) (args : JVal) : String :=
  dumpsSorted (.obj [("tool", .str tool), ("args", args)])

/-- The in-memory mock store (the Python dict `MockRegistry.mocks`),
modelled as an association list looked up by exact string key. -/
def Mocks := List (String × JVal)

/-- `MockRegistry.get`: retrieve the recorded response, if present. -/
def get (m : Mocks) (tool : String) (args : JVal) : Option JVal :=
  dictGet (get_mock_key tool args) m

/-- `MockRegistry.record`: store a response for future replay
(last write wins). -/
def record (m : Mocks) (tool : String) (args : JVal) (response : JVal) : Mocks :=
  dictSet (get_mock_key tool args) response m

/-- `MockRegistry.has_mock`: key membership. -/
def has_mock (m : Mocks) (tool : String) (args : JVal) : Bool :=
  (dictGet (get_mock_key tool args) m).isSome

end MockRegistry

/-! ## Test-case execution and validation (`RunMCPTestsNode.exec_async`) -/

/-- Does the Python check `"error" in resp` hold?  The runner's responses
are dicts, for which `in` is top-level key membership. -/
def hasKey (k : String) : JVal → Bool
  | .obj fs => fs.any (fun p => p.1 == k)
  | _ => false

/-- Is `n` a contiguous substring of `h` (Python `n in h` on strings)? -/
def isSubL (n : List Char) : List Char → Bool
  | [] => n.isEmpty
  | c :: h => n.isPrefixOf (c :: h) || isSubL n h

/-- Python `str.lower` on a character list. -/
def lowerL (s : List Char) : List Char := s.map Char.toLower

/-- The model of `SCHEMA_REGISTRY` together with pydantic validation: a
schema name resolves to a response predicate, or to nothing when the name
is unregistered. -/
def SchemaReg := String → Option (JVal → Bool)

/-- The fields of one test case that `RunMCPTestsNode.exec_async` reads.
`max_latency_ms` is `expected_metrics.max_latency_ms` when that value is
numeric (the `isinstance` guard), `none` otherwise. -/
structure TestCase where
  name : String
  tool : String
  args : JVal
  use_mocks : Option Bool
  record_mocks : Option Bool
  mock : Option JVal
  expected_schema : Option String
  expected_keywords : List String
  max_latency_ms : Option ℚ

/-- The schema check of `RunMCPTestsNode.exec_async` (the
`if status == "PASS" and schema_name:` block), threading the running
`(status, failures)` pair.  The failure message texts here and below
abbreviate the Python f-strings. -/
def schemaStage (schemas : SchemaReg) (tc : TestCase) (resp : JVal)
    (st : String × List String) : String × List String :=
  match tc.expected_schema with
  | some sn =>
    if st.1 = "PASS" ∧ sn ≠ "" then
      match schemas sn with
      | none => ("FAIL", ["Unknown schema " ++ sn])
      | some model => if model resp then st else ("FAIL", ["Schema validation failed"])
    else st
  | none => st

/-- The keywords of a test case that do not occur (case-insensitively) in
the serialized response (`jam`). -/
def missingKeywords (tc : TestCase) (resp : JVal) : List String :=
  tc.expected_keywords.filter (fun k => ¬ isSubL (lowerL k.data) (lowerL (dumps resp).data))

/-- The case-insensitive keyword check
(the `if status == "PASS" and keywords:` block). -/
def keywordStage (tc : TestCase) (resp : JVal) (st : String × List String) :
    String × List String :=
  if st.1 = "PASS" ∧ tc.expected_keywords ≠ [] then
    if missingKeywords tc resp ≠ [] then
      ("FAIL", ["Missing keywords: " ++ String.intercalate ", " (missingKeywords tc resp)])
    else st
  else st

/-- The latency check
(the `if status == "PASS" and isinstance(max_latency, ...)` block). -/
def latencyStage (tc : TestCase) (latency_ms : ℚ) (st : String × List String) :
    String × List String :=
  match tc.max_latency_ms with
  | some maxl =>
    if st.1 = "PASS" ∧ latency_ms > maxl then ("FAIL", ["Latency exceeded"]) else st
  | none => st

/-- The whole validation section of `RunMCPTestsNode.exec_async`: the
initial status from the `"error"` key, then the three guarded checks run
in order on the running state. -/
def validateResp (schemas : SchemaReg) (tc : TestCase) (resp : JVal) (latency_ms : ℚ) :
    String × List String :=
  latencyStage tc latency_ms
    (keywordStage tc resp
      (schemaStage schemas tc resp
        (if hasKey "error" resp then "FAIL" else "PASS", [])))

/-- What the real MCP call did (the external world: the FastMCP client and
the wall clock).  `ok text lat` is a successful call whose extracted
content text is `text`; `exn` carries the formatted exception message. -/
inductive RealCall where
  | ok (text : String) (latency_ms : ℚ)
  | timeout (latency_ms : ℚ)
  | exn (message : String) (latency_ms : ℚ)

/-- The result record `RunMCPTestsNode.exec_async` returns for one test. -/
structure TestOutcome where
  server : String
  test_name : String
  tool : String
  arguments : JVal
  status : String
  response : JVal
  failures : List String
  latency_ms : ℚ
  mode : String
deriving Repr, DecidableEq

namespace RunMCPTestsNode

/-- `RunMCPTestsNode.exec_async`: run one (server, test) pair.  The FastMCP
call is external and passed in as `real`; `fastmcp` models
`FASTMCP_AVAILABLE`.  Returns the result record and the mock registry
after the call (recording may extend it).  The reported latency is kept
unrounded. -/
def exec_async (schemas : SchemaReg) (server_path : String)
    (global_use_mocks global_record_mocks : Bool) (reg : MockRegistry.Mocks)
    (fastmcp : Bool) (real : RealCall) (tc : TestCase) :
    TestOutcome × MockRegistry.Mocks :=
  let use_mocks := tc.use_mocks.getD global_use_mocks
  let record_mocks := tc.record_mocks.getD global_record_mocks
  if use_mocks ∧ tc.mock.isSome then
    let resp := tc.mock.getD .null
    let vr := validateResp schemas tc resp 0
    (⟨"mock", tc.name, tc.tool, tc.args, vr.1, resp, vr.2, 0, "mock"⟩, reg)
  else if use_mocks ∧ MockRegistry.has_mock reg tc.tool tc.args then
    let resp := (MockRegistry.get reg tc.tool tc.args).getD .null
    let vr := validateResp schemas tc resp 0
    (⟨"mock", tc.name, tc.tool, tc.args, vr.1, resp, vr.2, 0, "replay"⟩, reg)
  else if ¬ fastmcp then
    (⟨server_path, tc.name, tc.tool, tc.args, "FAIL",
      .obj [("error", .str "FastMCP not installed")], ["pip install fastmcp"], 0, "error"⟩, reg)
  else
    match real with
    | .ok text lat =>
      let resp : JVal := .obj [("result", .str text)]
      let mode := if record_mocks then "recorded" else "real"
      let reg' := if record_mocks then MockRegistry.record reg tc.tool tc.args resp else reg
      let vr := validateResp schemas tc resp lat
      (⟨server_path, tc.name, tc.tool, tc.args, vr.1, resp, vr.2, lat, mode⟩, reg')
    | .timeout lat =>
      let resp : JVal := .obj [("error", .str "Timeout")]
      let vr := validateResp schemas tc resp lat
      (⟨server_path, tc.name, tc.tool, tc.args, vr.1, resp, vr.2, lat, "error"⟩, reg)
    | .exn msg lat =>
      let resp : JVal := .obj [("error", .str msg)]
      let vr := validateResp schemas tc resp lat
      (⟨server_path, tc.name, tc.tool, tc.args, vr.1, resp, vr.2, lat, "error"⟩, reg)

end RunMCPTestsNode

/-- A failing check, in the validator's fixed order.  Used by the
spec-side chain the code is compared against. -/
def schemaCheck (schemas : SchemaReg) (tc : TestCase) (resp : JVal) : Option String :=
  match tc.expected_schema with
  | some sn =>
    if sn ≠ "" then
      match schemas sn with
      | none => some ("Unknown schema " ++ sn)
      | some model => if model resp then none else some "Schema validation failed"
    else none
  | none => none

/-- The keyword check on its own: the message when a keyword is missing
from the serialized response (case-insensitively). -/
def keywordCheck (tc : TestCase) (resp : JVal) : Option String :=
  if tc.expected_keywords ≠ [] then
    if missingKeywords tc resp ≠ [] then
      some ("Missing keywords: " ++ String.intercalate ", " (missingKeywords tc resp))
    else none
  else none

/-- The latency check on its own. -/
def latencyCheck (tc : TestCase) (latency_ms : ℚ) : Option String :=
  match tc.max_latency_ms with
  | some maxl => if latency_ms > maxl then some "Latency exceeded" else none
  | none => none

/-- Modelled from the spec (§4.7): the validator as a short-circuiting
chain in the fixed order (a) call error, (b) schema, (c) keywords,
(d) latency; the first failing check alone is recorded. -/
def validator_spec_chain (schemas : SchemaReg) (tc : TestCase) (resp : JVal)
    (latency_ms : ℚ) : String × List String :=
  if hasKey "error" resp then ("FAIL", [])
  else
    match schemaCheck schemas tc resp with
    | some msg => ("FAIL", [msg])
    | none =>
      match keywordCheck tc resp with
      | some msg => ("FAIL", [msg])
      | none =>
        match latencyCheck tc latency_ms with
        | some msg => ("FAIL", [msg])
        | none => ("PASS", [])

/-! ## Parameter mapping (`MCPNode`, yenta/workflow_nodes.py) -/

namespace MCPNode

/-- The result of `_discover_tool_params`: the tool's declared parameter
names, split into required and optional. -/
structure ParamInfo where
  all : List String
  required : List String
  optionalp : List String

/-- `MCPNode._auto_map_params`: filter the upstream output down to the
parameters the tool accepts.  Returns the forwarded dict and the warnings
printed (message texts abbreviated). -/
def auto_map_params (required_params : List String) (input_data : List (String × JVal))
    (available_params : List String) : List (String × JVal) × List String :=
  if available_params.isEmpty then (input_data, [])
  else
    let input_keys := input_data.map Prod.fst
    let matching_params := input_keys.filter (fun k => available_params.contains k)
    if matching_params.isEmpty then
      (input_data, ["No matching params found"])
    else
      let missing_required := required_params.filter (fun k => ¬ input_keys.contains k)
      let warns :=
        if required_params ≠ [] ∧ missing_required ≠ [] then ["Missing required params"]
        else []
      (input_data.filter (fun p => matching_params.contains p.1), warns)

/-- The parameter-forwarding decision of `MCPNode.prep_async` for a dict
input: explicit params first, else auto-discovered schema mapping, else
pass everything.  `discovered` is the cached `_discover_tool_params`
result (`none` when discovery failed or the node is not a tool). -/
def prep_select (explicit_params : Option (List String)) (discovered : Option ParamInfo)
    (input_data : List (String × JVal)) : List (String × JVal) × List String :=
  let eps := explicit_params.getD []
  if ¬ eps.isEmpty then
    let filtered := input_data.filter (fun p => eps.contains p.1)
    let missing := eps.filter (fun k => ¬ (filtered.map Prod.fst).contains k)
    (filtered, if missing.isEmpty then [] else ["Missing explicitly requested params"])
  else
    match discovered with
    | some info =>
      if ¬ info.all.isEmpty then auto_map_params info.required input_data info.all
      else (input_data, ["No param info available"])
    | none => (input_data, ["No param info available"])

end MCPNode

/-! ## Retry controller (yenta/retry_logic.py) -/

namespace Retry

/-- `RetryConfig`: the retry parameters.  The exception allow-list is
modelled as the predicate `is_retryable_exception` computes from it. -/
structure RetryConfig (E : Type) where
  max_attempts : Nat
  base_delay : ℚ
  max_delay : ℚ
  exponential_base : ℚ
  jitter : Bool
  retryable_exceptions : E → Bool

/-- `calculate_delay`: exponential backoff capped at `max_delay`, then
optionally scaled by the jitter draw (the `random.uniform(0.5, 1.5)` value
is passed in as `jitter_factor`). -/
def calculate_delay {E : Type} (cfg : RetryConfig E) (attempt : Nat)
    (jitter_factor : ℚ) : ℚ :=
  let d := cfg.base_delay * cfg.exponential_base ^ (attempt - 1)
  let d := min d cfg.max_delay
  if cfg.jitter then d * jitter_factor else d

/-- The outcome of one underlying call. -/
inductive Attempt (E A : Type) where
  | ok (a : A)
  | err (e : E)

/-- The loop body of `retry_async`, with the remaining loop iterations as
fuel.  Returns the sleeps performed, the number of calls made, and the
final result; `Except.error none` models falling out of the loop with
`last_exception` still `None` (only reachable when `max_attempts = 0`). -/
def retry_go {E A : Type} (cfg : RetryConfig E) (f : Nat → Attempt E A) (jf : Nat → ℚ) :
    Nat → Nat → List ℚ × Nat × Except (Option E) A
  | _, 0 => ([], 0, .error none)
  | attempt, fuel + 1 =>
    match f attempt with
    | .ok a => ([], 1, .ok a)
    | .err e =>
      if ¬ cfg.retryable_exceptions e then ([], 1, .error (some e))
      else if attempt = cfg.max_attempts then ([], 1, .error (some e))
      else
        let d := calculate_delay cfg attempt (jf attempt)
        let rest := retry_go cfg f jf (attempt + 1) fuel
        (d :: rest.1, rest.2.1 + 1, rest.2.2)

/-- `retry_async`: attempts are numbered 1 to `max_attempts`; `f n` is what
the wrapped call does on attempt `n`, `jf n` the jitter draw before the
sleep that follows attempt `n`. -/
def retry_async {E A : Type} (cfg : RetryConfig E) (f : Nat → Attempt E A)
    (jf : Nat → ℚ) : List ℚ × Nat × Except (Option E) A :=
  retry_go cfg f jf 1 cfg.max_attempts

end Retry

/-! ## Node lifecycle (yenta/custom_nodes.py, yenta/workflow_nodes.py) -/

/-- The shared workflow state: the single mutable dict threaded through a
run. -/
def Shared := List (String × JVal)

/-- `shared.get(k)`. -/
def getKey (sh : Shared) (k : String) : Option JVal := dictGet k sh

/-- `shared[k] = v`. -/
def setKey (sh : Shared) (k : String) (v : JVal) : Shared := dictSet k v sh

/-- The common prep read: `{name}_input` if present, else the value under
the `_prev_output_key` cursor, else an empty dict (the cursor is only ever
written as a string; a non-string or empty cursor reads as missing, which
models Python truthiness of the key). -/
def prep_read (name : String) (sh : Shared) : JVal :=
  match getKey sh (name ++ "_input") with
  | some v => v
  | none =>
    match getKey sh "_prev_output_key" with
    | some (.str k) =>
      if k ≠ "" then (getKey sh k).getD (.obj []) else .obj []
    | _ => .obj []

namespace MCPNode

/-- `MCPNode.prep_async`, the shared-state part: read the input like every
node, then unwrap the `{input, routing_key}` record a custom node leaves
behind (protocol response objects are not `JVal`s and are outside this
model).  Returns the state (unchanged: the phase only reads) and the
input value. -/
def prep_async (name : String) (sh : Shared) : Shared × JVal :=
  let prev := prep_read name sh
  let input_data :=
    match prev with
    | .obj fs =>
      if (fs.map Prod.fst).contains "input" ∧ (fs.map Prod.fst).contains "routing_key" then
        (dictGet "input" fs).getD .null
      else .obj fs
    | v => v
  (sh, input_data)

/-- `MCPNode.post_async`: store the raw result under `{name}_output`, move
the `_prev_output_key` cursor, return the default routing key. -/
def post_async (name : String) (sh : Shared) (result : JVal) : Shared × String :=
  let output_key := name ++ "_output"
  let sh := setKey sh output_key result
  let sh := setKey sh "_prev_output_key" (.str output_key)
  (sh, "")

end MCPNode

namespace ValidationNode

/-- `ValidationNode.prep_async` (same body in `RoutingNode` and
`TransformNode`): read-only. -/
def prep_async (name : String) (sh : Shared) : Shared × JVal :=
  (sh, prep_read name sh)

/-- `ValidationNode.exec_async`: run the user `validate` hook
(`Except.error` models an exception escaping it) and police the routing
key against `allowed_routes` (a `None` or empty list, being falsy, turns
the policing off). -/
def exec_async (allowed_routes : Option (List String)) (default_route : String)
    (validate : Except String String) : String :=
  match validate with
  | .error _ => "error"
  | .ok routing_key =>
    match allowed_routes with
    | some allowed =>
      if ¬ allowed.isEmpty ∧ ¬ allowed.contains routing_key then default_route
      else routing_key
    | none => routing_key

/-- `ValidationNode.post_async` (same body in `RoutingNode`): store the
input together with the routing decision, move the cursor, and route on
the key. -/
def post_async (name : String) (sh : Shared) (prep_res : JVal) (routing_key : String) :
    Shared × String :=
  let output_key := name ++ "_output"
  let sh := setKey sh output_key
    (.obj [("input", prep_res), ("routing_key", .str routing_key)])
  let sh := setKey sh "_prev_output_key" (.str output_key)
  (sh, routing_key)

end ValidationNode

namespace TransformNode

/-- `TransformNode.exec_async`: apply the user transform; on an exception
return the original input. -/
def exec_async (input_data : JVal) (transform : Except String JVal) : JVal :=
  match transform with
  | .ok v => v
  | .error _ => input_data

/-- `TransformNode.post_async`: store the transformed data, move the
cursor, route to `next_node`. -/
def post_async (name next_node : String) (sh : Shared) (result : JVal) :
    Shared × String :=
  let output_key := name ++ "_output"
  let sh := setKey sh output_key result
  let sh := setKey sh "_prev_output_key" (.str output_key)
  (sh, next_node)

end TransformNode

/-! ## Parser helpers and graph builder (yenta/parser.py,
yenta/workflow_flow.py) -/

/-- One parsed workflow edge: `(source, action, target, params)`. -/
structure Conn where
  source : String
  action : Option String
  target : String
  params : Option (List String)
deriving Repr, DecidableEq

namespace WorkflowParser

/-- `WorkflowParser.get_ordered_nodes`: each distinct node name once, in
first-seen order, skipping the `"complete"` sentinel. -/
def get_ordered_nodes (connections : List Conn) : List String :=
  connections.foldl
    (fun acc c =>
      let acc := if acc.contains c.source then acc else acc ++ [c.source]
      if c.target ≠ "complete" ∧ ¬ acc.contains c.target then acc ++ [c.target] else acc)
    []

/-- `WorkflowParser.get_start_node`: raise on an empty edge list, else the
first edge's source. -/
def get_start_node (connections : List Conn) : Except String String :=
  match connections with
  | [] => .error "No workflow connections found"
  | c :: _ => .ok c.source

/-- Modelled from the spec (§4.1): the start node is the node that appears
as a source but never as a target; when no node or more than one node
qualifies, fall back to the first edge's source.  Stated for comparison
with `get_start_node`. -/
def get_start_node_spec (connections : List Conn) : Option String :=
  let sources := (connections.map Conn.source).eraseDups
  let targets := connections.map Conn.target
  match sources.filter (fun s => ¬ targets.contains s) with
  | [c] => some c
  | _ => (connections.head?).map Conn.source

/-- `WorkflowParser.get_node_params`: the params of the first edge whose
target is the node and whose params are present and non-empty (Python
`if target == node_name and params`). -/
def get_node_params (connections : List Conn) (node_name : String) :
    Option (List String) :=
  match connections with
  | [] => none
  | c :: rest =>
    if c.target = node_name ∧ (c.params.getD []) ≠ [] then c.params
    else get_node_params rest node_name

end WorkflowParser

namespace MCPWorkflowFlow

/-- `_is_custom_node`'s snake_case to PascalCase heuristic. -/
def pascalCase (name : String) : String :=
  String.join ((name.splitOn "_").map String.capitalize)

/-- `MCPWorkflowFlow._is_custom_node`: exact class-name match, else the
PascalCase heuristic, against the loaded custom-class names. -/
def is_custom_node (classes : List String) (node_name : String) : Bool :=
  classes.contains node_name || classes.contains (pascalCase node_name)

/-- `MCPWorkflowFlow._get_custom_node_class` (returning the class name). -/
def get_custom_node_class (classes : List String) (node_name : String) : Option String :=
  if classes.contains node_name then some node_name
  else if classes.contains (pascalCase node_name) then some (pascalCase node_name)
  else none

/-- The kind of node the builder instantiates for a name. -/
inductive NodeKind where
  | custom (className : String)
  | tool
deriving Repr, DecidableEq

/-- The built graph: the instantiated nodes, the wiring (source, action,
target) with `"complete"` edges dropped, and the start node. -/
structure BuiltWorkflow where
  nodes : List (String × NodeKind)
  wiring : List (String × Option String × String)
  start_node_name : String
deriving Repr, DecidableEq

/-- `MCPWorkflowFlow._build_workflow`, after parsing: raise when no
connections parsed; otherwise instantiate every ordered node (a custom
class when `_is_custom_node` matches, else an MCP tool node), wire the
non-`"complete"` edges, and start at `get_start_node`. -/
def build_workflow (classes : List String) (connections : List Conn) :
    Except String BuiltWorkflow :=
  match connections with
  | [] => .error "No valid workflow connections found"
  | c :: rest =>
    let conns := c :: rest
    let ordered := WorkflowParser.get_ordered_nodes conns
    let nodes := ordered.map (fun n =>
      (n, if is_custom_node classes n
          then NodeKind.custom ((get_custom_node_class classes n).getD n)
          else NodeKind.tool))
    let wiring := conns.filterMap (fun e =>
      if e.target = "complete" then none else some (e.source, e.action, e.target))
    .ok ⟨nodes, wiring, c.source⟩

end MCPWorkflowFlow

/-! ## Auxiliary predicates for the serialization proofs -/

/-- Is `c` a decimal digit (by code point)? -/
def isDig (c : Char) : Bool := 48 ≤ c.toNat ∧ c.toNat ≤ 57

/-- No digit and no minus sign at the head: the characters that may
legally follow a serialized number inside (or at the end of) a JSON
document. -/
def NumStop (s : List Char) : Prop :=
  ∀ c, s.head? = some c → isDig c = false ∧ c ≠ '-'

/-- Constructor tag of a value (booleans share one tag). -/
def kindOf : JVal → Nat
  | .null => 0
  | .bool _ => 1
  | .num _ => 2
  | .str _ => 3
  | .arr _ => 4
  | .obj _ => 5

/-- The constructor tag a serialization's first character betrays. -/
def charClass (c : Char) : Nat :=
  if c = 'n' then 0
  else if c = 't' then 1
  else if c = 'f' then 1
  else if isDig c = true ∨ c = '-' then 2
  else if c = '"' then 3
  else if c = '[' then 4
  else if c = obChar then 5
  else 6

/-! ## Character and digit lemmas -/

theorem charToNat_inj {a b : Char} (h : a.toNat = b.toNat) : a = b := by
  cases a
  cases b
  simp only [Char.toNat] at h
  congr 1
  exact UInt32.ext h

theorem strData_inj {a b : String} (h : a.data = b.data) : a = b := by
  cases a
  cases b
  congr 1

theorem isDig_digitChar : ∀ d, d < 10 → isDig (digitChar d) = true := by decide

theorem digitChar_inj : ∀ d < 10, ∀ e < 10, digitChar d = digitChar e → d = e := by decide

theorem natCharsAux_eq :
    ∀ fuel n, n ≤ fuel → natCharsAux fuel n = ((Nat.digits 10 n).map digitChar).reverse := by
  intro fuel
  induction fuel with
  | zero =>
    intro n hn
    interval_cases n
    simp [natCharsAux]
  | succ fuel ih =>
    intro n hn
    by_cases h0 : n = 0
    · subst h0
      simp [natCharsAux]
    · have hdiv : n / 10 ≤ fuel := by
        have : n / 10 < n := Nat.div_lt_self (Nat.pos_of_ne_zero h0) (by norm_num)
        omega
      rw [natCharsAux, if_neg h0, ih _ hdiv,
        Nat.digits_def' (by norm_num : (1:ℕ) < 10) (Nat.pos_of_ne_zero h0)]
      simp

theorem natChars_eq (n : Nat) :
    natChars n = if n = 0 then ['0'] else ((Nat.digits 10 n).map digitChar).reverse := by
  by_cases h : n = 0 <;> simp [natChars, h, natCharsAux_eq n n le_rfl]

theorem mem_natChars_isDig {n : Nat} : ∀ c ∈ natChars n, isDig c = true := by
  intro c hc
  rw [natChars_eq] at hc
  by_cases h : n = 0
  · simp [h] at hc
    subst hc
    decide
  · simp [h] at hc
    obtain ⟨d, hd, rfl⟩ := hc
    exact isDig_digitChar d (Nat.digits_lt_base (by norm_num) hd)

theorem natChars_ne_nil (n : Nat) : natChars n ≠ [] := by
  rw [natChars_eq]
  by_cases h : n = 0
  · simp [h]
  · simp [h, Nat.digits_ne_nil_iff_ne_zero.mpr h]

theorem map_digitChar_inj :
    ∀ l₁ l₂ : List Nat, (∀ d ∈ l₁, d < 10) → (∀ d ∈ l₂, d < 10) →
      l₁.map digitChar = l₂.map digitChar → l₁ = l₂ := by
  intro l₁
  induction l₁ with
  | nil => intro l₂ _ _ h; cases l₂ <;> simp_all
  | cons d ds ih =>
    intro l₂ h₁ h₂ h
    cases l₂ with
    | nil => simp at h
    | cons e es =>
      simp only [List.map_cons, List.cons.injEq] at h
      have hd := digitChar_inj d (h₁ d (by simp)) e (h₂ e (by simp)) h.1
      have := ih es (fun x hx => h₁ x (by simp [hx])) (fun x hx => h₂ x (by simp [hx])) h.2
      simp [hd, this]

theorem digits_map_eq_zero_list {n : Nat}
    (h : (Nat.digits 10 n).map digitChar = ['0']) : n = 0 := by
  have h4 : Nat.digits 10 n = [0] :=
    map_digitChar_inj (Nat.digits 10 n) [0]
      (fun d hd => Nat.digits_lt_base (by norm_num) hd) (by simp)
      (by rw [h]; decide)
  have h5 := congrArg (Nat.ofDigits 10) h4
  rw [Nat.ofDigits_digits] at h5
  simpa [Nat.ofDigits] using h5

theorem natChars_inj {m n : Nat} (h : natChars m = natChars n) : m = n := by
  rw [natChars_eq, natChars_eq] at h
  by_cases hm : m = 0 <;> by_cases hn : n = 0
  · omega
  · exfalso
    simp only [if_pos hm, if_neg hn] at h
    have h3 : (Nat.digits 10 n).map digitChar = ['0'] := by
      have := congrArg List.reverse h
      simpa using this.symm
    exact hn (digits_map_eq_zero_list h3)
  · exfalso
    simp only [if_neg hm, if_pos hn] at h
    have h3 : (Nat.digits 10 m).map digitChar = ['0'] := by
      have := congrArg List.reverse h
      simpa using this
    exact hm (digits_map_eq_zero_list h3)
  · simp only [if_neg hm, if_neg hn] at h
    have h2 := map_digitChar_inj _ _
      (fun d hd => Nat.digits_lt_base (by norm_num) hd)
      (fun d hd => Nat.digits_lt_base (by norm_num) hd)
      (by have := congrArg List.reverse h; simpa using this)
    calc m = Nat.ofDigits 10 (Nat.digits 10 m) := (Nat.ofDigits_digits 10 m).symm
    _ = Nat.ofDigits 10 (Nat.digits 10 n) := by rw [h2]
    _ = n := Nat.ofDigits_digits 10 n

theorem digit_run_cancel :
    ∀ u v s t : List Char, (∀ c ∈ u, isDig c = true) → (∀ c ∈ v, isDig c = true) →
      NumStop s → NumStop t → u ++ s = v ++ t → u = v ∧ s = t := by
  intro u
  induction u with
  | nil =>
    intro v s t _ hv hs _ h
    cases v with
    | nil => simpa using h
    | cons c cs =>
      exfalso
      simp only [List.nil_append, List.cons_append] at h
      have h1 : s.head? = some c := by rw [h]; simp
      have := hs c h1
      exact absurd (hv c (by simp)) (by simp [this.1])
  | cons c cs ih =>
    intro v s t hu hv hs ht h
    cases v with
    | nil =>
      exfalso
      simp only [List.nil_append, List.cons_append] at h
      have h1 : t.head? = some c := by rw [← h]; simp
      have := ht c h1
      exact absurd (hu c (by simp)) (by simp [this.1])
    | cons d ds =>
      simp only [List.cons_append, List.cons.injEq] at h
      obtain ⟨rfl, h2⟩ := h
      have := ih ds s t (fun x hx => hu x (by simp [hx]))
        (fun x hx => hv x (by simp [hx])) hs ht h2
      simp [this.1, this.2]

theorem intChars_cancel :
    ∀ (a b : Int) (s t : List Char), NumStop s → NumStop t →
      intChars a ++ s = intChars b ++ t → a = b ∧ s = t := by
  intro a b s t hs ht h
  cases a with
  | ofNat m =>
    cases b with
    | ofNat n =>
      simp only [intChars] at h
      have := digit_run_cancel _ _ _ _ (mem_natChars_isDig) (mem_natChars_isDig) hs ht h
      exact ⟨by rw [natChars_inj this.1], this.2⟩
    | negSucc n =>
      exfalso
      simp only [intChars] at h
      obtain ⟨c, r, hc⟩ := List.exists_cons_of_ne_nil (natChars_ne_nil m)
      rw [hc] at h
      simp at h
      have : isDig c = true := mem_natChars_isDig c (by rw [hc]; simp)
      rw [h.1] at this
      exact absurd this (by decide)
  | negSucc m =>
    cases b with
    | ofNat n =>
      exfalso
      simp only [intChars] at h
      obtain ⟨c, r, hc⟩ := List.exists_cons_of_ne_nil (natChars_ne_nil n)
      rw [hc] at h
      simp at h
      have : isDig c = true := mem_natChars_isDig c (by rw [hc]; simp)
      rw [← h.1] at this
      exact absurd this (by decide)
    | negSucc n =>
      simp only [intChars, List.cons_append, List.cons.injEq, true_and] at h
      have := digit_run_cancel _ _ _ _ (mem_natChars_isDig) (mem_natChars_isDig) hs ht h
      have hmn : m = n := by have := natChars_inj this.1; omega
      exact ⟨by rw [hmn], this.2⟩

/-! ## Escaped-string and serialization-head lemmas -/

theorem esc_cancel :
    ∀ x y s t : List Char, escList x ++ '"' :: s = escList y ++ '"' :: t →
      x = y ∧ s = t := by
  intro x
  induction x with
  | nil =>
    intro y s t h
    cases y with
    | nil => simpa [escList] using h
    | cons d ds =>
      exfalso
      simp only [escList, List.nil_append, List.append_assoc] at h
      by_cases hd : d = '"' ∨ d = '\\'
      · rw [escChar, if_pos hd] at h
        simp at h
      · rw [escChar, if_neg hd] at h
        simp only [List.cons_append, List.nil_append, List.cons.injEq] at h
        exact hd (Or.inl h.1.symm)
  | cons c cs ih =>
    intro y s t h
    cases y with
    | nil =>
      exfalso
      simp only [escList, List.nil_append, List.append_assoc] at h
      by_cases hc : c = '"' ∨ c = '\\'
      · rw [escChar, if_pos hc] at h
        simp at h
      · rw [escChar, if_neg hc] at h
        simp only [List.cons_append, List.nil_append, List.cons.injEq] at h
        exact hc (Or.inl h.1)
    | cons d ds =>
      simp only [escList, List.append_assoc] at h
      by_cases hc : c = '"' ∨ c = '\\' <;> by_cases hd : d = '"' ∨ d = '\\'
      · rw [escChar, if_pos hc] at h
        rw [escChar, if_pos hd] at h
        simp only [List.cons_append, List.nil_append, List.cons.injEq, true_and] at h
        obtain ⟨rfl, h2⟩ := h
        have := ih ds s t h2
        simp [this.1, this.2]
      · exfalso
        rw [escChar, if_pos hc] at h
        rw [escChar, if_neg hd] at h
        simp only [List.cons_append, List.nil_append, List.cons.injEq] at h
        exact hd (Or.inr h.1.symm)
      · exfalso
        rw [escChar, if_neg hc] at h
        rw [escChar, if_pos hd] at h
        simp only [List.cons_append, List.nil_append, List.cons.injEq] at h
        exact hc (Or.inr h.1)
      · rw [escChar, if_neg hc] at h
        rw [escChar, if_neg hd] at h
        simp only [List.cons_append, List.nil_append, List.cons.injEq] at h
        obtain ⟨rfl, h2⟩ := h
        have := ih ds s t h2
        simp [this.1, this.2]

theorem num_head : ∀ n : Int, ∃ c r, intChars n = c :: r ∧ (isDig c = true ∨ c = '-') := by
  intro n
  cases n with
  | ofNat m =>
    obtain ⟨c, r, hc⟩ := List.exists_cons_of_ne_nil (natChars_ne_nil m)
    exact ⟨c, r, hc, Or.inl (mem_natChars_isDig c (by rw [hc]; simp))⟩
  | negSucc m => exact ⟨'-', _, rfl, Or.inr rfl⟩

theorem dig_charClass {c : Char} (h : isDig c = true ∨ c = '-') : charClass c = 2 := by
  rcases h with h | h
  · have hb : 48 ≤ c.toNat ∧ c.toNat ≤ 57 := by simpa [isDig] using h
    have h1 : c ≠ 'n' := by rintro rfl; exact absurd hb (by decide)
    have h2 : c ≠ 't' := by rintro rfl; exact absurd hb (by decide)
    have h3 : c ≠ 'f' := by rintro rfl; exact absurd hb (by decide)
    simp [charClass, h1, h2, h3, h]
  · subst h; decide

theorem emit_head_class : ∀ v : JVal, ∃ c r, emit v = c :: r ∧ charClass c = kindOf v := by
  intro v
  cases v with
  | null => exact ⟨'n', "ull".data, by decide, rfl⟩
  | bool b =>
    cases b
    · exact ⟨'f', "alse".data, by decide, rfl⟩
    · exact ⟨'t', "rue".data, by decide, rfl⟩
  | num n =>
    obtain ⟨c, r, hc, hd⟩ := num_head n
    exact ⟨c, r, by rw [show emit (.num n) = intChars n from rfl, hc],
      by rw [dig_charClass hd]; rfl⟩
  | str x => exact ⟨'"', _, rfl, rfl⟩
  | arr xs => exact ⟨'[', _, rfl, rfl⟩
  | obj fs => exact ⟨obChar, _, rfl, rfl⟩

theorem kindOf_le (v : JVal) : kindOf v ≤ 5 := by
  cases v <;> simp [kindOf]

theorem emit_kind {v w : JVal} {s t : List Char} (h : emit v ++ s = emit w ++ t) :
    kindOf v = kindOf w := by
  obtain ⟨c, r, hc, hcc⟩ := emit_head_class v
  obtain ⟨d, q, hd, hdc⟩ := emit_head_class w
  rw [hc, hd] at h
  simp only [List.cons_append, List.cons.injEq] at h
  rw [← hcc, ← hdc, h.1]

theorem numStop_nil : NumStop [] := fun _ h => nomatch h

theorem numStop_restL (xs : List JVal) (s : List Char) :
    NumStop (emitListRest xs ++ ']' :: s) := by
  cases xs with
  | nil =>
    intro c h
    simp only [emitListRest, List.nil_append, List.head?] at h
    cases h
    decide
  | cons x xs =>
    intro c h
    simp only [emitListRest, List.cons_append, List.head?] at h
    cases h
    decide

theorem numStop_restF (fs : List (String × JVal)) (s : List Char) :
    NumStop (emitFieldsRest fs ++ cbChar :: s) := by
  cases fs with
  | nil =>
    intro c h
    simp only [emitFieldsRest, List.nil_append, List.head?] at h
    cases h
    decide
  | cons f fs =>
    obtain ⟨k, v⟩ := f
    intro c h
    simp only [emitFieldsRest, List.cons_append, List.head?] at h
    cases h
    decide

/-! ## Injectivity of the serialization -/

mutual

theorem emit_inj : ∀ (v w : JVal) (s t : List Char), NumStop s → NumStop t →
    emit v ++ s = emit w ++ t → v = w ∧ s = t
  | v, w, s, t, hs, ht, h => by
    have hk := emit_kind h
    cases v with
    | null =>
      cases w with
      | null => exact ⟨rfl, by simpa [emit] using h⟩
      | bool b => simp [kindOf] at hk
      | num n => simp [kindOf] at hk
      | str y => simp [kindOf] at hk
      | arr ys => simp [kindOf] at hk
      | obj gs => simp [kindOf] at hk
    | bool a =>
      cases w with
      | null => simp [kindOf] at hk
      | bool b =>
        cases a <;> cases b
        · exact ⟨rfl, by simpa [emit] using h⟩
        · exfalso; simp [emit] at h
        · exfalso; simp [emit] at h
        · exact ⟨rfl, by simpa [emit] using h⟩
      | num n => simp [kindOf] at hk
      | str y => simp [kindOf] at hk
      | arr ys => simp [kindOf] at hk
      | obj gs => simp [kindOf] at hk
    | num m =>
      cases w with
      | null => simp [kindOf] at hk
      | bool b => simp [kindOf] at hk
      | num n =>
        have h' : intChars m ++ s = intChars n ++ t := h
        have hr := intChars_cancel m n s t hs ht h'
        exact ⟨by rw [hr.1], hr.2⟩
      | str y => simp [kindOf] at hk
      | arr ys => simp [kindOf] at hk
      | obj gs => simp [kindOf] at hk
    | str x =>
      cases w with
      | null => simp [kindOf] at hk
      | bool b => simp [kindOf] at hk
      | num n => simp [kindOf] at hk
      | str y =>
        have h' : escList x.data ++ '"' :: s = escList y.data ++ '"' :: t := by
          simpa [emit, List.append_assoc] using h
        have hr := esc_cancel _ _ _ _ h'
        exact ⟨by rw [strData_inj hr.1], hr.2⟩
      | arr ys => simp [kindOf] at hk
      | obj gs => simp [kindOf] at hk
    | arr xs =>
      cases w with
      | null => simp [kindOf] at hk
      | bool b => simp [kindOf] at hk
      | num n => simp [kindOf] at hk
      | str y => simp [kindOf] at hk
      | arr ys =>
        have h' : emitList xs ++ ']' :: s = emitList ys ++ ']' :: t := by
          simpa [emit, List.append_assoc] using h
        have hr := emitList_inj xs ys s t h'
        exact ⟨by rw [hr.1], hr.2⟩
      | obj gs => simp [kindOf] at hk
    | obj fs =>
      cases w with
      | null => simp [kindOf] at hk
      | bool b => simp [kindOf] at hk
      | num n => simp [kindOf] at hk
      | str y => simp [kindOf] at hk
      | arr ys => simp [kindOf] at hk
      | obj gs =>
        have h' : emitFields fs ++ cbChar :: s = emitFields gs ++ cbChar :: t := by
          simpa [emit, List.append_assoc] using h
        have hr := emitFields_inj fs gs s t h'
        exact ⟨by rw [hr.1], hr.2⟩

theorem emitList_inj : ∀ (xs ys : List JVal) (s t : List Char),
    emitList xs ++ ']' :: s = emitList ys ++ ']' :: t → xs = ys ∧ s = t
  | [], [], s, t, h => by simpa [emitList] using h
  | [], y :: ys, s, t, h => by
    exfalso
    obtain ⟨c, r, hc, hcc⟩ := emit_head_class y
    simp only [emitList, List.nil_append, hc, List.append_assoc, List.cons_append,
      List.cons.injEq] at h
    rw [← h.1] at hcc
    have h6 : charClass ']' = 6 := by decide
    have := kindOf_le y
    omega
  | x :: xs, [], s, t, h => by
    exfalso
    obtain ⟨c, r, hc, hcc⟩ := emit_head_class x
    simp only [emitList, List.nil_append, hc, List.append_assoc, List.cons_append,
      List.cons.injEq] at h
    rw [h.1] at hcc
    have h6 : charClass ']' = 6 := by decide
    have := kindOf_le x
    omega
  | x :: xs, y :: ys, s, t, h => by
    have h' : emit x ++ (emitListRest xs ++ ']' :: s) =
        emit y ++ (emitListRest ys ++ ']' :: t) := by
      simpa [emitList, List.append_assoc] using h
    have h1 := emit_inj x y _ _ (numStop_restL xs s) (numStop_restL ys t) h'
    have h2 := emitListRest_inj xs ys s t h1.2
    exact ⟨by rw [h1.1, h2.1], h2.2⟩

theorem emitListRest_inj : ∀ (xs ys : List JVal) (s t : List Char),
    emitListRest xs ++ ']' :: s = emitListRest ys ++ ']' :: t → xs = ys ∧ s = t
  | [], [], s, t, h => by simpa [emitListRest] using h
  | [], y :: ys, s, t, h => by exfalso; simp [emitListRest] at h
  | x :: xs, [], s, t, h => by exfalso; simp [emitListRest] at h
  | x :: xs, y :: ys, s, t, h => by
    have h' : emit x ++ (emitListRest xs ++ ']' :: s) =
        emit y ++ (emitListRest ys ++ ']' :: t) := by
      simpa [emitListRest, List.append_assoc] using h
    have h1 := emit_inj x y _ _ (numStop_restL xs s) (numStop_restL ys t) h'
    have h2 := emitListRest_inj xs ys s t h1.2
    exact ⟨by rw [h1.1, h2.1], h2.2⟩

theorem emitFields_inj : ∀ (fs gs : List (String × JVal)) (s t : List Char),
    emitFields fs ++ cbChar :: s = emitFields gs ++ cbChar :: t → fs = gs ∧ s = t
  | [], [], s, t, h => by simpa [emitFields] using h
  | [], (l, w) :: gs, s, t, h => by
    exfalso
    simp only [emitFields, keyChars, List.nil_append, List.append_assoc,
      List.cons_append, List.cons.injEq] at h
    exact absurd h.1 (by decide)
  | (k, v) :: fs, [], s, t, h => by
    exfalso
    simp only [emitFields, keyChars, List.nil_append, List.append_assoc,
      List.cons_append, List.cons.injEq] at h
    exact absurd h.1 (by decide)
  | (k, v) :: fs, (l, w) :: gs, s, t, h => by
    have h' : escList k.data ++
        '"' :: (':' :: ' ' :: (emit v ++ (emitFieldsRest fs ++ cbChar :: s))) =
        escList l.data ++
        '"' :: (':' :: ' ' :: (emit w ++ (emitFieldsRest gs ++ cbChar :: t))) := by
      simpa [emitFields, keyChars, List.append_assoc] using h
    have h1 := esc_cancel _ _ _ _ h'
    have hk : k = l := strData_inj h1.1
    have h2 : emit v ++ (emitFieldsRest fs ++ cbChar :: s) =
        emit w ++ (emitFieldsRest gs ++ cbChar :: t) := by
      simpa using h1.2
    have h3 := emit_inj v w _ _ (numStop_restF fs s) (numStop_restF gs t) h2
    have h4 := emitFieldsRest_inj fs gs s t h3.2
    exact ⟨by rw [hk, h3.1, h4.1], h4.2⟩

theorem emitFieldsRest_inj : ∀ (fs gs : List (String × JVal)) (s t : List Char),
    emitFieldsRest fs ++ cbChar :: s = emitFieldsRest gs ++ cbChar :: t →
      fs = gs ∧ s = t
  | [], [], s, t, h => by simpa [emitFieldsRest] using h
  | [], (l, w) :: gs, s, t, h => by
    exfalso
    simp only [emitFieldsRest, keyChars, List.nil_append, List.append_assoc,
      List.cons_append, List.cons.injEq] at h
    exact absurd h.1 (by decide)
  | (k, v) :: fs, [], s, t, h => by
    exfalso
    simp only [emitFieldsRest, keyChars, List.nil_append, List.append_assoc,
      List.cons_append, List.cons.injEq] at h
    exact absurd h.1 (by decide)
  | (k, v) :: fs, (l, w) :: gs, s, t, h => by
    have h' : escList k.data ++
        '"' :: (':' :: ' ' :: (emit v ++ (emitFieldsRest fs ++ cbChar :: s))) =
        escList l.data ++
        '"' :: (':' :: ' ' :: (emit w ++ (emitFieldsRest gs ++ cbChar :: t))) := by
      simpa [emitFieldsRest, keyChars, List.append_assoc] using h
    have h1 := esc_cancel _ _ _ _ h'
    have hk : k = l := strData_inj h1.1
    have h2 : emit v ++ (emitFieldsRest fs ++ cbChar :: s) =
        emit w ++ (emitFieldsRest gs ++ cbChar :: t) := by
      simpa using h1.2
    have h3 := emit_inj v w _ _ (numStop_restF fs s) (numStop_restF gs t) h2
    have h4 := emitFieldsRest_inj fs gs s t h3.2
    exact ⟨by rw [hk, h3.1, h4.1], h4.2⟩

end

theorem emit_injective {v w : JVal} (h : emit v = emit w) : v = w := by
  have h' : emit v ++ [] = emit w ++ [] := by simpa using h
  exact (emit_inj v w [] [] numStop_nil numStop_nil h').1

/-! ## The mock key determines, and is determined by, the canonical form -/

theorem canon_wrap (t : String) (a : JVal) :
    canon (.obj [("tool", .str t), ("args", a)]) =
      .obj [("args", canon a), ("tool", .str t)] := by
  have hts : strLe "tool" "args" = false := by decide
  simp [canon, canonFields, sortFields, insField, hts]

theorem get_mock_key_eq_iff (t t' : String) (a a' : JVal) :
    MockRegistry.get_mock_key t a = MockRegistry.get_mock_key t' a' ↔
      t = t' ∧ canon a = canon a' := by
  constructor
  · intro h
    have h1 := congrArg String.data h
    simp only [MockRegistry.get_mock_key, dumpsSorted] at h1
    have h2 := emit_injective h1
    rw [canon_wrap, canon_wrap] at h2
    simp only [JVal.obj.injEq, List.cons.injEq, Prod.mk.injEq, JVal.str.injEq,
      true_and, and_true] at h2
    exact ⟨h2.2, h2.1⟩
  · rintro ⟨rfl, hc⟩
    simp [MockRegistry.get_mock_key, dumpsSorted, canon_wrap, hc]

theorem dictGet_set_self (k : String) (v : JVal) :
    ∀ m, dictGet k (dictSet k v m) = some v
  | [] => by simp [dictGet, dictSet]
  | (k', v') :: rest => by
    by_cases h : k' = k
    · simp [dictSet, h, dictGet]
    · simp [dictSet, h, dictGet, dictGet_set_self k v rest]

theorem dictGet_set_ne (k k' : String) (v : JVal) (h : k' ≠ k) :
    ∀ m, dictGet k' (dictSet k v m) = dictGet k' m
  | [] => by
    have hk : ¬ k = k' := fun hh => h hh.symm
    simp [dictGet, dictSet, hk]
  | (k₀, v₀) :: rest => by
    by_cases h0 : k₀ = k
    · subst h0
      have hk : ¬ k₀ = k' := fun hh => h hh.symm
      simp [dictSet, dictGet, hk]
    · simp [dictSet, h0, dictGet, dictGet_set_ne k k' v h rest]

/-! ## Sorting by key: totality, antisymmetry, transitivity, uniqueness -/

theorem lexLe_total : ∀ x y : List Char, lexLe x y = true ∨ lexLe y x = true := by
  intro x
  induction x with
  | nil => intro y; left; simp [lexLe]
  | cons a as ih =>
    intro y
    cases y with
    | nil => right; simp [lexLe]
    | cons b bs =>
      simp only [lexLe]
      rcases Nat.lt_trichotomy a.toNat b.toNat with h | h | h
      · left; simp [h]
      · have h2 : ¬ a.toNat < b.toNat := by omega
        have h3 : ¬ b.toNat < a.toNat := by omega
        simpa [h2, h3] using ih bs
      · right; simp [h]

theorem lexLe_antisymm : ∀ x y : List Char, lexLe x y = true → lexLe y x = true → x = y := by
  intro x
  induction x with
  | nil =>
    intro y _ hyx
    cases y with
    | nil => rfl
    | cons b bs => simp [lexLe] at hyx
  | cons a as ih =>
    intro y hxy hyx
    cases y with
    | nil => simp [lexLe] at hxy
    | cons b bs =>
      simp only [lexLe] at hxy hyx
      rcases Nat.lt_trichotomy a.toNat b.toNat with h | h | h
      · have h3 : ¬ b.toNat < a.toNat := by omega
        simp [h, h3] at hyx
      · have h2 : ¬ a.toNat < b.toNat := by omega
        have h3 : ¬ b.toNat < a.toNat := by omega
        simp only [if_neg h2, if_neg h3] at hxy hyx
        rw [charToNat_inj h, ih bs hxy hyx]
      · have h2 : ¬ a.toNat < b.toNat := by omega
        simp [h, h2] at hxy

theorem lexLe_trans : ∀ x y z : List Char,
    lexLe x y = true → lexLe y z = true → lexLe x z = true := by
  intro x
  induction x with
  | nil => intro y z _ _; simp [lexLe]
  | cons a as ih =>
    intro y z hxy hyz
    cases y with
    | nil => simp [lexLe] at hxy
    | cons b bs =>
      cases z with
      | nil => simp [lexLe] at hyz
      | cons c cs =>
        simp only [lexLe] at hxy hyz ⊢
        rcases Nat.lt_trichotomy a.toNat b.toNat with h1 | h1 | h1 <;>
          rcases Nat.lt_trichotomy b.toNat c.toNat with h2 | h2 | h2
        · have h3 : a.toNat < c.toNat := by omega
          simp [h3]
        · have h3 : a.toNat < c.toNat := by omega
          simp [h3]
        · have h3 : ¬ b.toNat < c.toNat := by omega
          simp [h3, h2] at hyz
        · have h3 : a.toNat < c.toNat := by omega
          simp [h3]
        · have h5 : ¬ a.toNat < b.toNat := by omega
          have h6 : ¬ b.toNat < a.toNat := by omega
          have h7 : ¬ b.toNat < c.toNat := by omega
          have h8 : ¬ c.toNat < b.toNat := by omega
          simp only [if_neg h5, if_neg h6] at hxy
          simp only [if_neg h7, if_neg h8] at hyz
          have h9 : ¬ a.toNat < c.toNat := by omega
          have h10 : ¬ c.toNat < a.toNat := by omega
          simp only [if_neg h9, if_neg h10]
          exact ih bs cs hxy hyz
        · have h3 : ¬ b.toNat < c.toNat := by omega
          simp [h3, h2] at hyz
        · have h3 : ¬ a.toNat < b.toNat := by omega
          simp [h3, h1] at hxy
        · have h3 : ¬ a.toNat < b.toNat := by omega
          simp [h3, h1] at hxy
        · have h3 : ¬ a.toNat < b.toNat := by omega
          simp [h3, h1] at hxy

theorem strLe_total (a b : String) : strLe a b = true ∨ strLe b a = true :=
  lexLe_total a.data b.data

theorem strLe_antisymm {a b : String} (h1 : strLe a b = true) (h2 : strLe b a = true) :
    a = b :=
  strData_inj (lexLe_antisymm a.data b.data h1 h2)

theorem strLe_trans {a b c : String} (h1 : strLe a b = true) (h2 : strLe b c = true) :
    strLe a c = true :=
  lexLe_trans a.data b.data c.data h1 h2

theorem insField_perm (p : String × JVal) : ∀ l, (insField p l).Perm (p :: l)
  | [] => by simp [insField]
  | q :: qs => by
    by_cases h : strLe p.1 q.1 = true
    · simp [insField, h]
    · simp only [insField, if_neg h]
      exact ((insField_perm p qs).cons q).trans (List.Perm.swap p q qs)

theorem sortFields_perm : ∀ l, (sortFields l).Perm l
  | [] => by simp [sortFields]
  | p :: ps => by
    have h1 := insField_perm p (sortFields ps)
    exact h1.trans ((sortFields_perm ps).cons p)

theorem insField_sorted (p : String × JVal) :
    ∀ l, List.Pairwise (fun a b : String × JVal => strLe a.1 b.1 = true) l →
      List.Pairwise (fun a b : String × JVal => strLe a.1 b.1 = true) (insField p l)
  | [], _ => by simp [insField]
  | q :: qs, hl => by
    obtain ⟨hq, hqs⟩ := List.pairwise_cons.mp hl
    by_cases h : strLe p.1 q.1 = true
    · simp only [insField, if_pos h]
      refine List.pairwise_cons.mpr ⟨?_, hl⟩
      intro b hb
      rcases List.mem_cons.mp hb with rfl | hb'
      · exact h
      · exact strLe_trans h (hq b hb')
    · simp only [insField, if_neg h]
      refine List.pairwise_cons.mpr ⟨?_, insField_sorted p qs hqs⟩
      intro b hb
      have hmem := (insField_perm p qs).mem_iff.mp hb
      rcases List.mem_cons.mp hmem with rfl | hb'
      · rcases strLe_total b.1 q.1 with h' | h'
        · exact absurd h' h
        · exact h'
      · exact hq b hb'

theorem sortFields_sorted :
    ∀ l, List.Pairwise (fun a b : String × JVal => strLe a.1 b.1 = true) (sortFields l)
  | [] => by simp [sortFields]
  | p :: ps => insField_sorted p (sortFields ps) (sortFields_sorted ps)

theorem sortFields_eq_of_perm {l₁ l₂ : List (String × JVal)} (hp : l₁.Perm l₂)
    (hn : (l₁.map Prod.fst).Nodup) : sortFields l₁ = sortFields l₂ := by
  have p₁ := sortFields_perm l₁
  have p₂ := sortFields_perm l₂
  have hperm : (sortFields l₁).Perm (sortFields l₂) := p₁.trans (hp.trans p₂.symm)
  have hn₁ : ((sortFields l₁).map Prod.fst).Nodup :=
    ((p₁.map Prod.fst).nodup_iff).mpr hn
  have hn₂ : ((sortFields l₂).map Prod.fst).Nodup :=
    ((p₂.map Prod.fst).nodup_iff).mpr (((hp.map Prod.fst).nodup_iff).mp hn)
  have hne₁ : List.Pairwise (fun a b : String × JVal => a.1 ≠ b.1) (sortFields l₁) :=
    (List.pairwise_map).mp hn₁
  have hne₂ : List.Pairwise (fun a b : String × JVal => a.1 ≠ b.1) (sortFields l₂) :=
    (List.pairwise_map).mp hn₂
  have hs₁ := (sortFields_sorted l₁).and hne₁
  have hs₂ := (sortFields_sorted l₂).and hne₂
  haveI : IsAntisymm (String × JVal) (fun a b => strLe a.1 b.1 = true ∧ a.1 ≠ b.1) :=
    ⟨fun a b hab hba => absurd (strLe_antisymm hab.1 hba.1) hab.2⟩
  exact List.eq_of_perm_of_sorted hperm hs₁ hs₂

theorem canonFields_eq_map : ∀ fs, canonFields fs = fs.map (fun p => (p.1, canon p.2))
  | [] => rfl
  | (k, v) :: fs => by simp [canonFields, canonFields_eq_map fs]

theorem canon_obj_perm {fs gs : List (String × JVal)} (hp : fs.Perm gs)
    (hn : (fs.map Prod.fst).Nodup) : canon (.obj fs) = canon (.obj gs) := by
  simp only [canon]
  congr 1
  apply sortFields_eq_of_perm
  · rw [canonFields_eq_map, canonFields_eq_map]
    exact hp.map _
  · rw [canonFields_eq_map]
    simpa [List.map_map, Function.comp] using hn

/-! ## The validator is the spec's short-circuiting chain -/

theorem schemaStage_keep (schemas : SchemaReg) (tc : TestCase) (resp : JVal)
    (st : String × List String) (h : st.1 ≠ "PASS") :
    schemaStage schemas tc resp st = st := by
  unfold schemaStage
  cases tc.expected_schema with
  | none => rfl
  | some sn => simp [h]

theorem keywordStage_keep (tc : TestCase) (resp : JVal)
    (st : String × List String) (h : st.1 ≠ "PASS") :
    keywordStage tc resp st = st := by
  unfold keywordStage
  simp [h]

theorem latencyStage_keep (tc : TestCase) (lat : ℚ)
    (st : String × List String) (h : st.1 ≠ "PASS") :
    latencyStage tc lat st = st := by
  unfold latencyStage
  cases tc.max_latency_ms with
  | none => rfl
  | some maxl => simp [h]

theorem schemaStage_pass (schemas : SchemaReg) (tc : TestCase) (resp : JVal)
    (fl : List String) :
    schemaStage schemas tc resp ("PASS", fl) =
      (match schemaCheck schemas tc resp with
        | some msg => ("FAIL", [msg])
        | none => ("PASS", fl)) := by
  unfold schemaStage schemaCheck
  cases tc.expected_schema with
  | none => rfl
  | some sn =>
    by_cases hsn : sn = ""
    · simp [hsn]
    · simp only [hsn, ne_eq, not_false_eq_true, and_true, if_pos rfl, if_neg hsn,
        if_pos (And.intro rfl hsn)]
      cases schemas sn with
      | none => rfl
      | some model => by_cases hok : model resp = true <;> simp [hok]

theorem keywordStage_pass (tc : TestCase) (resp : JVal) (fl : List String) :
    keywordStage tc resp ("PASS", fl) =
      (match keywordCheck tc resp with
        | some msg => ("FAIL", [msg])
        | none => ("PASS", fl)) := by
  unfold keywordStage keywordCheck
  by_cases hkw : tc.expected_keywords = []
  · simp [hkw]
  · by_cases hmiss : missingKeywords tc resp = []
    · simp [hkw, hmiss]
    · simp [hkw, hmiss]

theorem latencyStage_pass (tc : TestCase) (lat : ℚ) (fl : List String) :
    latencyStage tc lat ("PASS", fl) =
      (match latencyCheck tc lat with
        | some msg => ("FAIL", [msg])
        | none => ("PASS", fl)) := by
  unfold latencyStage latencyCheck
  cases tc.max_latency_ms with
  | none => rfl
  | some maxl => by_cases hl : lat > maxl <;> simp [hl]

theorem validateResp_chain (schemas : SchemaReg) (tc : TestCase) (resp : JVal)
    (lat : ℚ) :
    validateResp schemas tc resp lat = validator_spec_chain schemas tc resp lat := by
  unfold validateResp validator_spec_chain
  by_cases herr : hasKey "error" resp = true
  · rw [if_pos herr, if_pos herr]
    rw [schemaStage_keep _ _ _ _ (by simp), keywordStage_keep _ _ _ (by simp),
      latencyStage_keep _ _ _ (by simp)]
  · rw [if_neg herr, if_neg herr]
    rw [schemaStage_pass]
    cases hsc : schemaCheck schemas tc resp with
    | some msg =>
      rw [keywordStage_keep _ _ _ (by simp), latencyStage_keep _ _ _ (by simp)]
    | none =>
      rw [keywordStage_pass]
      cases hkc : keywordCheck tc resp with
      | some msg => rw [latencyStage_keep _ _ _ (by simp)]
      | none => rw [latencyStage_pass]

/-! ## Claim C3: validator check order and short-circuit -/

/-- C3: the validator evaluates its checks in the fixed order — call
error, expected schema, expected keywords (case-insensitive substring of
the serialized response), max latency — and short-circuits at the first
failing check, which alone determines the recorded failure; in
particular, a missing keyword is the single recorded failure even when
the latency bound is also exceeded. -/
theorem C3_validator_short_circuit (schemas : SchemaReg) (tc : TestCase) (resp : JVal)
    (lat : ℚ) (msg msg' : String) :
    validateResp schemas tc resp lat = validator_spec_chain schemas tc resp lat ∧
    (hasKey "error" resp = false → schemaCheck schemas tc resp = none →
      keywordCheck tc resp = some msg → latencyCheck tc lat = some msg' →
      validateResp schemas tc resp lat = ("FAIL", [msg])) := by
  refine ⟨validateResp_chain schemas tc resp lat, ?_⟩
  intro he hsc hkc _
  rw [validateResp_chain]
  unfold validator_spec_chain
  simp [he, hsc, hkc]

/-- C3 witness: a concrete test case whose response misses the keyword
`"needle"` and whose latency `50` exceeds the bound `10` records exactly
the keyword failure. -/
theorem C3_witness :
    hasKey "error" (JVal.obj [("result", .str "haystack")]) = false ∧
    schemaCheck (fun _ => none)
      ⟨"kw", "t", .obj [], none, none, none, none, ["needle"], some 10⟩
      (.obj [("result", .str "haystack")]) = none ∧
    keywordCheck ⟨"kw", "t", .obj [], none, none, none, none, ["needle"], some 10⟩
      (.obj [("result", .str "haystack")]) = some "Missing keywords: needle" ∧
    latencyCheck ⟨"kw", "t", .obj [], none, none, none, none, ["needle"], some 10⟩ 50 =
      some "Latency exceeded" ∧
    validateResp (fun _ => none)
      ⟨"kw", "t", .obj [], none, none, none, none, ["needle"], some 10⟩
      (.obj [("result", .str "haystack")]) 50 = ("FAIL", ["Missing keywords: needle"]) :=
  ⟨by decide, by decide, by decide, by decide,
    (C3_validator_short_circuit (fun _ => none)
      ⟨"kw", "t", .obj [], none, none, none, none, ["needle"], some 10⟩
      (.obj [("result", .str "haystack")]) 50 "Missing keywords: needle"
      "Latency exceeded").2 (by decide) (by decide) (by decide) (by decide)⟩

/-! ## Claim C9: the call-error check is bare key membership -/

/-- C9: the pass/fail verdict's call-error check is membership of the
top-level key `"error"` in the response mapping; any such response —
an inline mock with a legitimate `"error"` field included — is a FAIL,
and the failures list stays empty (no reason is recorded for check (a)). -/
theorem C9_error_key (schemas : SchemaReg) (tc : TestCase) (resp : JVal) (lat : ℚ)
    (server_path : String) (guse grec fastmcp : Bool) (reg : MockRegistry.Mocks)
    (real : RealCall) (m : JVal)
    (h : hasKey "error" resp = true) :
    validateResp schemas tc resp lat = ("FAIL", []) ∧
    (tc.mock = some m → hasKey "error" m = true → tc.use_mocks.getD guse = true →
      (RunMCPTestsNode.exec_async schemas server_path guse grec reg fastmcp real
          tc).1.status = "FAIL" ∧
      (RunMCPTestsNode.exec_async schemas server_path guse grec reg fastmcp real
          tc).1.failures = []) := by
  have hv : ∀ r : JVal, hasKey "error" r = true → ∀ l : ℚ,
      validateResp schemas tc r l = ("FAIL", []) := by
    intro r hr l
    rw [validateResp_chain]
    unfold validator_spec_chain
    simp [hr]
  refine ⟨hv resp h lat, ?_⟩
  intro hm hme huse
  simp [RunMCPTestsNode.exec_async, huse, hm, hv m hme]

/-- C9 witness: an inline mock configured with a legitimate field named
`"error"` is recorded as FAIL with an empty failures list. -/
theorem C9_witness :
    hasKey "error" (JVal.obj [("error", .str "not actually an error")]) = true ∧
    (RunMCPTestsNode.exec_async (fun _ => none) "server.py" true false [] true
        (.ok "x" 0)
        ⟨"t1", "echo", .obj [], none, none,
          some (.obj [("error", .str "not actually an error")]), none, [], none⟩).1.status =
      "FAIL" ∧
    (RunMCPTestsNode.exec_async (fun _ => none) "server.py" true false [] true
        (.ok "x" 0)
        ⟨"t1", "echo", .obj [], none, none,
          some (.obj [("error", .str "not actually an error")]), none, [], none⟩).1.failures =
      [] := by
  have h := (C9_error_key (fun _ => none)
    ⟨"t1", "echo", .obj [], none, none,
      some (.obj [("error", .str "not actually an error")]), none, [], none⟩
    (.obj [("error", .str "not actually an error")]) 0 "server.py" true false true
    ([] : MockRegistry.Mocks) (.ok "x" 0)
    (.obj [("error", .str "not actually an error")]) (by decide)).2
    rfl (by decide) (by decide)
  exact ⟨by decide, h.1, h.2⟩

/-! ## Claim C1: replay-miss behaviour and fallback precedence -/

/-- C1 as stated is false on the code: with mocking enabled, no inline
mock and an empty registry, the runner silently performs the real call
(mode `"real"`) and the test case can even PASS — a registry miss is not
a hard failure. -/
theorem C1_counterexample :
    (RunMCPTestsNode.exec_async (fun _ => none) "server.py" false false
        ([] : MockRegistry.Mocks) true (.ok "hello" 5)
        ⟨"t1", "echo", .obj [], some true, none, none, none, [], none⟩).1.mode = "real" ∧
    (RunMCPTestsNode.exec_async (fun _ => none) "server.py" false false
        ([] : MockRegistry.Mocks) true (.ok "hello" 5)
        ⟨"t1", "echo", .obj [], some true, none, none, none, [], none⟩).1.status =
      "PASS" := by
  decide

/-- C1 amended: with mocking enabled the precedence is inline per-test
mock, then registry replay, then real call — and on a registry miss with
no inline mock the runner falls through to the real call rather than
failing hard. -/
theorem C1_fallback_precedence (schemas : SchemaReg) (server_path : String)
    (guse grec : Bool) (reg : MockRegistry.Mocks) (real : RealCall) (tc : TestCase)
    (m : JVal) (text : String) (lat : ℚ)
    (huse : tc.use_mocks.getD guse = true) :
    (tc.mock = some m →
      (RunMCPTestsNode.exec_async schemas server_path guse grec reg true real
          tc).1.mode = "mock" ∧
      (RunMCPTestsNode.exec_async schemas server_path guse grec reg true real
          tc).1.response = m) ∧
    (tc.mock = none → MockRegistry.has_mock reg tc.tool tc.args = true →
      (RunMCPTestsNode.exec_async schemas server_path guse grec reg true real
          tc).1.mode = "replay" ∧
      (RunMCPTestsNode.exec_async schemas server_path guse grec reg true real
          tc).1.response = (MockRegistry.get reg tc.tool tc.args).getD .null) ∧
    (tc.mock = none → MockRegistry.has_mock reg tc.tool tc.args = false →
      real = .ok text lat → tc.record_mocks.getD grec = false →
      (RunMCPTestsNode.exec_async schemas server_path guse grec reg true real
          tc).1.mode = "real" ∧
      (RunMCPTestsNode.exec_async schemas server_path guse grec reg true real
          tc).1.response = .obj [("result", .str text)] ∧
      (RunMCPTestsNode.exec_async schemas server_path guse grec reg true real
          tc).1.server = server_path) := by
  refine ⟨?_, ?_, ?_⟩
  · intro hm
    simp [RunMCPTestsNode.exec_async, huse, hm]
  · intro hm hreg
    simp [RunMCPTestsNode.exec_async, huse, hm, hreg]
  · intro hm hreg hr hrec
    subst hr
    simp [RunMCPTestsNode.exec_async, huse, hm, hreg, hrec]

/-- C1 witness: the three precedence branches at concrete inputs. -/
theorem C1_witness :
    ((⟨"t1", "echo", .obj [], some true, none, some (.obj [("a", .num 1)]), none, [],
        none⟩ : TestCase).use_mocks.getD false = true) ∧
    (RunMCPTestsNode.exec_async (fun _ => none) "server.py" false false
        ([] : MockRegistry.Mocks) true (.ok "hello" 5)
        ⟨"t1", "echo", .obj [], some true, none, some (.obj [("a", .num 1)]), none, [],
          none⟩).1.mode = "mock" ∧
    (RunMCPTestsNode.exec_async (fun _ => none) "server.py" false false
        ([] : MockRegistry.Mocks) true (.ok "hello" 5)
        ⟨"t1", "echo", .obj [], some true, none, none, none, [], none⟩).1.mode = "real" := by
  refine ⟨by decide, ?_, ?_⟩
  · exact ((C1_fallback_precedence (fun _ => none) "server.py" false false
      ([] : MockRegistry.Mocks) (.ok "hello" 5)
      ⟨"t1", "echo", .obj [], some true, none, some (.obj [("a", .num 1)]), none, [], none⟩
      (.obj [("a", .num 1)]) "hello" 5 (by decide)).1 rfl).1
  · exact ((C1_fallback_precedence (fun _ => none) "server.py" false false
      ([] : MockRegistry.Mocks) (.ok "hello" 5)
      ⟨"t1", "echo", .obj [], some true, none, none, none, [], none⟩
      (.obj []) "hello" 5 (by decide)).2.2 rfl (by decide) rfl (by decide)).1

/-! ## Claim C5: order-independent mock keys and record/replay round trip -/

/-- C5: after `record(t, a, R)`, a replay lookup with any arguments whose
canonical (key-sorted) form equals `a`'s — i.e. equal as a mapping,
whatever the key insertion order — returns `R` unchanged; a lookup with
arguments of a different canonical form stays a miss; and permuting the
fields of a (distinct-keyed) argument object never changes the mock key. -/
theorem C5_mock_roundtrip (t : String) (a a' a'' R : JVal) (m : MockRegistry.Mocks)
    (h1 : canon a' = canon a) (h2 : canon a'' ≠ canon a)
    (h3 : MockRegistry.get m t a'' = none) :
    MockRegistry.get (MockRegistry.record m t a R) t a' = some R ∧
    MockRegistry.get (MockRegistry.record m t a R) t a'' = none ∧
    (∀ fs gs : List (String × JVal), fs.Perm gs → (fs.map Prod.fst).Nodup →
      MockRegistry.get_mock_key t (.obj fs) = MockRegistry.get_mock_key t (.obj gs)) := by
  refine ⟨?_, ?_, ?_⟩
  · have hk : MockRegistry.get_mock_key t a' = MockRegistry.get_mock_key t a :=
      (get_mock_key_eq_iff t t a' a).mpr ⟨rfl, h1⟩
    simp only [MockRegistry.get, MockRegistry.record, hk]
    exact dictGet_set_self _ _ m
  · have hk : MockRegistry.get_mock_key t a'' ≠ MockRegistry.get_mock_key t a := by
      intro hh
      exact h2 ((get_mock_key_eq_iff t t a'' a).mp hh).2
    simp only [MockRegistry.get, MockRegistry.record]
    rw [dictGet_set_ne _ _ _ hk m]
    exact h3
  · intro fs gs hp hn
    exact (get_mock_key_eq_iff t t (.obj fs) (.obj gs)).mpr ⟨rfl, canon_obj_perm hp hn⟩

/-- C5 witness: record under `{"a":1,"b":2}`, replay with `{"b":2,"a":1}`
returns the response unchanged; different arguments stay a miss. -/
theorem C5_witness :
    canon (JVal.obj [("b", .num 2), ("a", .num 1)]) =
      canon (JVal.obj [("a", .num 1), ("b", .num 2)]) ∧
    canon (JVal.obj [("q", .str "y")]) ≠ canon (JVal.obj [("a", .num 1), ("b", .num 2)]) ∧
    MockRegistry.get
      (MockRegistry.record ([] : MockRegistry.Mocks) "search"
        (.obj [("a", .num 1), ("b", .num 2)]) (.obj [("result", .str "R")]))
      "search" (.obj [("b", .num 2), ("a", .num 1)]) = some (.obj [("result", .str "R")]) ∧
    MockRegistry.get
      (MockRegistry.record ([] : MockRegistry.Mocks) "search"
        (.obj [("a", .num 1), ("b", .num 2)]) (.obj [("result", .str "R")]))
      "search" (.obj [("q", .str "y")]) = none := by
  have h := C5_mock_roundtrip "search" (.obj [("a", .num 1), ("b", .num 2)])
    (.obj [("b", .num 2), ("a", .num 1)]) (.obj [("q", .str "y")])
    (.obj [("result", .str "R")]) ([] : MockRegistry.Mocks)
    (by decide) (by decide) (by decide)
  exact ⟨by decide, by decide, h.1, h.2.1⟩

/-! ## Claim C7: the start node -/

/-- C7 as stated is false on the code: for the edges
`[(B, ∅, C), (A, ∅, B)]` the unique node that is a source and never a
target is `A`, yet `get_start_node` returns the first edge's source `B`. -/
theorem C7_counterexample :
    WorkflowParser.get_start_node_spec
        [⟨"B", none, "C", none⟩, ⟨"A", none, "B", none⟩] = some "A" ∧
    WorkflowParser.get_start_node
        [⟨"B", none, "C", none⟩, ⟨"A", none, "B", none⟩] = .ok "B" ∧
    ("B" : String) ≠ "A" :=
  ⟨by decide, rfl, by decide⟩

/-- C7 amended: for every non-empty parsed edge list, `get_start_node`
returns the first edge's source unconditionally (the source-never-target
rule is not implemented); on an empty list it raises. -/
theorem C7_start_is_first_source (connections : List Conn) (c : Conn) (rest : List Conn)
    (h : connections = c :: rest) :
    WorkflowParser.get_start_node connections = .ok c.source ∧
    WorkflowParser.get_start_node [] =
      Except.error "No workflow connections found" := by
  subst h
  exact ⟨rfl, rfl⟩

/-- C7 witness: for `[(A, ∅, B), (B, ∅, C)]` the start node is `A`
(which here is also the node that is never a target). -/
theorem C7_witness :
    WorkflowParser.get_start_node
        [⟨"A", none, "B", none⟩, ⟨"B", none, "C", none⟩] = .ok "A" :=
  (C7_start_is_first_source _ ⟨"A", none, "B", none⟩ [⟨"B", none, "C", none⟩] rfl).1

/-! ## Claim C8: the builder's treatment of unresolved names -/

/-- C8 as stated is false on the code: a node name that matches no custom
class is silently instantiated as a Tool node — the builder succeeds
instead of raising a configuration error. -/
theorem C8_counterexample :
    MCPWorkflowFlow.is_custom_node [] "unknown_tool" = false ∧
    MCPWorkflowFlow.build_workflow [] [⟨"unknown_tool", none, "complete", none⟩] =
      .ok ⟨[("unknown_tool", .tool)], [], "unknown_tool"⟩ :=
  ⟨by decide, rfl⟩

/-- C8 amended: the builder fails only on an empty parsed edge list; for
every non-empty edge list it succeeds, starting at the first edge's
source, and every node name that is not a registered custom class
defaults silently to a Tool node. -/
theorem C8_builder_defaults (classes : List String) (c : Conn) (rest : List Conn) :
    (∃ bw, MCPWorkflowFlow.build_workflow classes (c :: rest) = .ok bw ∧
      bw.start_node_name = c.source ∧
      ∀ n ∈ WorkflowParser.get_ordered_nodes (c :: rest),
        MCPWorkflowFlow.is_custom_node classes n = false →
          (n, MCPWorkflowFlow.NodeKind.tool) ∈ bw.nodes) ∧
    MCPWorkflowFlow.build_workflow classes [] =
      .error "No valid workflow connections found" := by
  refine ⟨⟨_, rfl, rfl, ?_⟩, rfl⟩
  intro n hn hnc
  exact List.mem_map.mpr ⟨n, hn, by simp [hnc]⟩

/-- C8 witness: a workflow naming only an unknown tool builds
successfully, with the unknown name defaulted to a Tool node. -/
theorem C8_witness :
    ∃ bw, MCPWorkflowFlow.build_workflow []
        [⟨"unknown_tool", none, "complete", none⟩] = .ok bw ∧
      ("unknown_tool", MCPWorkflowFlow.NodeKind.tool) ∈ bw.nodes := by
  obtain ⟨⟨bw, hbw, _, hmem⟩, _⟩ :=
    C8_builder_defaults [] ⟨"unknown_tool", none, "complete", none⟩ []
  exact ⟨bw, hbw, hmem "unknown_tool" (by decide) (by decide)⟩

/-! ## Claim C10: validation-node routing-key policing -/

/-- C10: an exception escaping the user `validate` hook yields the routing
key `"error"` rather than propagating; and with a (non-empty)
`allowed_routes` configured, the key reaching finalize is always in
`allowed_routes ∪ {default_route, "error"}` — an out-of-list return is
replaced by `default_route`, while the exception path bypasses the check. -/
theorem C10_validation_routing (allowed : List String) (default_route : String)
    (validate : Except String String) (e : String) (hne : allowed ≠ []) :
    (validate = .error e →
      ValidationNode.exec_async (some allowed) default_route validate = "error") ∧
    ValidationNode.exec_async (some allowed) default_route validate ∈
      allowed ++ [default_route, "error"] := by
  constructor
  · rintro rfl
    rfl
  · match validate with
    | .error _ => simp [ValidationNode.exec_async]
    | .ok r =>
      simp only [ValidationNode.exec_async]
      by_cases h : ¬ allowed.isEmpty = true ∧ ¬ allowed.contains r = true
      · rw [if_pos h]
        simp
      · rw [if_neg h]
        rw [Classical.not_and_iff_or_not_not] at h
        rcases h with h | h
        · simp only [not_not] at h
          exact absurd (List.isEmpty_iff.mp h) hne
        · simp only [not_not] at h
          have : r ∈ allowed := by simpa using List.elem_iff.mp h
          simp [this]

/-- C10 witness: a raising validate routes to `"error"`; an out-of-list
return lands in the allowed-or-default-or-error set. -/
theorem C10_witness :
    (["hit", "miss"] : List String) ≠ [] ∧
    ValidationNode.exec_async (some ["hit", "miss"]) "default" (.error "boom") = "error" ∧
    ValidationNode.exec_async (some ["hit", "miss"]) "default" (.ok "weird") ∈
      (["hit", "miss"] ++ ["default", "error"] : List String) :=
  ⟨by decide,
    (C10_validation_routing ["hit", "miss"] "default" (.error "boom") "boom"
      (by decide)).1 rfl,
    (C10_validation_routing ["hit", "miss"] "default" (.ok "weird") "boom"
      (by decide)).2⟩

/-! ## Claim C2: automatic parameter mapping -/

theorem map_fst_filter_key (p : String → Bool) (l : List (String × JVal)) :
    (l.filter (fun q => p q.1)).map Prod.fst = (l.map Prod.fst).filter p := by
  induction l with
  | nil => rfl
  | cons q l ih => by_cases h : p q.1 = true <;> simp [List.filter_cons, h, ih]

theorem auto_map_params_fst (req : List String) (input_data : List (String × JVal))
    (avail : List String) (hav : avail ≠ []) :
    (MCPNode.auto_map_params req input_data avail).1 =
      if input_data.filter (fun p => avail.contains p.1) = [] then input_data
      else input_data.filter (fun p => avail.contains p.1) := by
  have hne : avail.isEmpty = false := by
    cases avail with
    | nil => exact absurd rfl hav
    | cons a l => rfl
  have hmm : (input_data.map Prod.fst).filter (fun k => avail.contains k) =
      (input_data.filter (fun p => avail.contains p.1)).map Prod.fst :=
    (map_fst_filter_key _ _).symm
  unfold MCPNode.auto_map_params
  dsimp only
  rw [hne]
  simp only [Bool.false_eq_true, if_false]
  by_cases hfil : input_data.filter (fun p => avail.contains p.1) = []
  · have hisE : ((input_data.map Prod.fst).filter (fun k => avail.contains k)).isEmpty =
        true := by
      rw [hmm, hfil]
      rfl
    rw [if_pos hisE, if_pos hfil]
  · have hisE : ((input_data.map Prod.fst).filter (fun k => avail.contains k)).isEmpty =
        false := by
      rw [hmm]
      cases hh : (input_data.filter (fun p => avail.contains p.1)) with
      | nil => exact absurd hh hfil
      | cons a l => rfl
    rw [if_neg (show ¬ ((input_data.map Prod.fst).filter
        (fun k => avail.contains k)).isEmpty = true by
      rw [hisE]; exact Bool.false_ne_true), if_neg hfil]
    apply List.filter_congr
    intro q hq
    have hqk : q.1 ∈ input_data.map Prod.fst := List.mem_map_of_mem _ hq
    by_cases hc : avail.contains q.1 = true
    · have hmem : q.1 ∈ (input_data.map Prod.fst).filter (fun k => avail.contains k) :=
        List.mem_filter.mpr ⟨hqk, hc⟩
      have h1 : ((input_data.map Prod.fst).filter
          (fun k => avail.contains k)).contains q.1 = true := List.elem_iff.mpr hmem
      rw [h1, hc]
    · have hnm : q.1 ∉ (input_data.map Prod.fst).filter (fun k => avail.contains k) :=
        fun hmem => hc (List.mem_filter.mp hmem).2
      have h1 : ¬ ((input_data.map Prod.fst).filter
          (fun k => avail.contains k)).contains q.1 = true :=
        fun hcc => hnm (List.elem_iff.mp hcc)
      rw [Bool.not_eq_true] at h1
      rw [Bool.not_eq_true] at hc
      rw [h1, hc]

/-- C2: for a tool node with no explicit params and a successful schema
discovery, the forwarded input is the restriction of the (dict) upstream
output to the discovered field names; when that restriction is empty the
full upstream output is forwarded instead; and missing required fields
never change the forwarded data (they only warn) — the forwarded dict
does not depend on the required list at all. -/
theorem C2_auto_mapping (info : MCPNode.ParamInfo) (input_data : List (String × JVal))
    (hall : info.all ≠ []) :
    (input_data.filter (fun p => info.all.contains p.1) ≠ [] →
      (MCPNode.prep_select none (some info) input_data).1 =
        input_data.filter (fun p => info.all.contains p.1)) ∧
    (input_data.filter (fun p => info.all.contains p.1) = [] →
      (MCPNode.prep_select none (some info) input_data).1 = input_data) ∧
    (∀ req : List String,
      (MCPNode.auto_map_params req input_data info.all).1 =
        (MCPNode.auto_map_params info.required input_data info.all).1) := by
  have hne : info.all.isEmpty = false := by
    cases hh : info.all with
    | nil => exact absurd hh hall
    | cons a l => rfl
  have hsel : MCPNode.prep_select none (some info) input_data =
      MCPNode.auto_map_params info.required input_data info.all := by
    unfold MCPNode.prep_select
    simp [hne]
  refine ⟨?_, ?_, ?_⟩
  · intro hfil
    rw [hsel, auto_map_params_fst _ _ _ hall, if_neg hfil]
  · intro hfil
    rw [hsel, auto_map_params_fst _ _ _ hall, if_pos hfil]
  · intro req
    rw [auto_map_params_fst _ _ _ hall, auto_map_params_fst _ _ _ hall]

/-- C2 witness: upstream `{"url","title","content"}` against schema
fields `{content, max_links}` (required `{content}`) forwards exactly
`{"content": "z"}`. -/
theorem C2_witness :
    ([("url", JVal.str "x"), ("title", .str "y"), ("content", .str "z")].filter
        (fun p => (["content", "max_links"] : List String).contains p.1) ≠ []) ∧
    (MCPNode.prep_select none
        (some ⟨["content", "max_links"], ["content"], ["max_links"]⟩)
        [("url", .str "x"), ("title", .str "y"), ("content", .str "z")]).1 =
      [("content", JVal.str "z")] := by
  refine ⟨by decide, ?_⟩
  have h := (C2_auto_mapping ⟨["content", "max_links"], ["content"], ["max_links"]⟩
    [("url", .str "x"), ("title", .str "y"), ("content", .str "z")] (by decide)).1
    (by decide)
  rw [h]
  decide

/-! ## Claim C4: retry controller -/

theorem retry_go_all_fail {E A : Type} (cfg : Retry.RetryConfig E)
    (f : Nat → Retry.Attempt E A) (jf : Nat → ℚ) (err : Nat → E)
    (hf : ∀ n, 1 ≤ n → n ≤ cfg.max_attempts → f n = .err (err n))
    (hr : ∀ n, cfg.retryable_exceptions (err n) = true) :
    ∀ fuel attempt, 1 ≤ fuel → 1 ≤ attempt →
      attempt + fuel = cfg.max_attempts + 1 →
      Retry.retry_go cfg f jf attempt fuel =
        ((List.range (fuel - 1)).map
            (fun i => Retry.calculate_delay cfg (attempt + i) (jf (attempt + i))),
          fuel, .error (some (err cfg.max_attempts))) := by
  intro fuel
  induction fuel with
  | zero => intro attempt h0 _ _; omega
  | succ fuel ih =>
    intro attempt _ h1 h2
    have hatt_le : attempt ≤ cfg.max_attempts := by omega
    rw [Retry.retry_go, hf attempt h1 hatt_le]
    simp only [hr attempt, not_true, Bool.not_eq_true, if_false, Bool.true_eq_false,
      not_true_eq_false]
    by_cases hlast : attempt = cfg.max_attempts
    · have hf0 : fuel = 0 := by omega
      subst hf0
      rw [if_pos hlast, hlast]
      simp
    · rw [if_neg hlast]
      have hfuel1 : 1 ≤ fuel := by omega
      rw [ih (attempt + 1) hfuel1 (by omega) (by omega)]
      obtain ⟨k, rfl⟩ : ∃ k, fuel = k + 1 := ⟨fuel - 1, by omega⟩
      simp only [Nat.add_sub_cancel, List.range_succ_eq_map, List.map_cons, List.map_map]
      refine congrArg (fun w => (w, k + 1 + 1, Except.error (some (err cfg.max_attempts)))) ?_
      have harg : ∀ i : Nat, attempt + 1 + i = attempt + (i + 1) := by omega
      simp only [Nat.add_zero, List.cons.injEq, true_and]
      apply List.map_congr_left
      intro i _
      simp [Function.comp, harg i, Nat.succ_eq_add_one]

/-- C4: the wait before the next try is
`min(baseDelay * multiplier^(attempt-1), maxDelay)`, optionally scaled by
the jitter draw; a non-allow-listed exception propagates immediately
after one call; when every attempt fails with an allow-listed exception
the loop makes exactly `max_attempts` calls, sleeps `max_attempts - 1`
times with those delays, and propagates the last exception — so with
`max_attempts = 3`, `base_delay = 1`, `multiplier = 2` and jitter off
there are exactly two waits (1s, 2s) and no fourth attempt. -/
theorem C4_retry_controller {E A : Type} (cfg : Retry.RetryConfig E)
    (f : Nat → Retry.Attempt E A) (jf : Nat → ℚ) (e : E) (err : Nat → E) :
    (cfg.jitter = false → ∀ attempt,
      Retry.calculate_delay cfg attempt (jf attempt) =
        min (cfg.base_delay * cfg.exponential_base ^ (attempt - 1)) cfg.max_delay) ∧
    (cfg.jitter = true → ∀ attempt,
      Retry.calculate_delay cfg attempt (jf attempt) =
        min (cfg.base_delay * cfg.exponential_base ^ (attempt - 1)) cfg.max_delay *
          jf attempt) ∧
    (f 1 = .err e → cfg.retryable_exceptions e = false → 1 ≤ cfg.max_attempts →
      Retry.retry_async cfg f jf = ([], 1, .error (some e))) ∧
    ((∀ n, 1 ≤ n → n ≤ cfg.max_attempts → f n = .err (err n)) →
      (∀ n, cfg.retryable_exceptions (err n) = true) → 1 ≤ cfg.max_attempts →
      Retry.retry_async cfg f jf =
        ((List.range (cfg.max_attempts - 1)).map
            (fun i => Retry.calculate_delay cfg (1 + i) (jf (1 + i))),
          cfg.max_attempts, .error (some (err cfg.max_attempts)))) := by
  refine ⟨?_, ?_, ?_, ?_⟩
  · intro hj attempt
    simp [Retry.calculate_delay, hj]
  · intro hj attempt
    simp [Retry.calculate_delay, hj]
  · intro hf1 hnr hm
    obtain ⟨k, hk⟩ : ∃ k, cfg.max_attempts = k + 1 := ⟨cfg.max_attempts - 1, by omega⟩
    rw [Retry.retry_async, hk, Retry.retry_go, hf1]
    simp [hnr]
  · intro hf hr hm
    rw [Retry.retry_async,
      retry_go_all_fail cfg f jf err hf hr cfg.max_attempts 1 (by omega) le_rfl
        (by omega)]

/-- C4 witness: `max_attempts = 3`, `base_delay = 1`, `multiplier = 2`,
jitter disabled, every call failing with a retryable error: exactly two
waits of 1 and 2 seconds, three calls, and the last error propagates. -/
theorem C4_witness :
    Retry.retry_async
        (⟨3, 1, 60, 2, false, fun _ => true⟩ : Retry.RetryConfig String)
        (fun _ => (.err "boom" : Retry.Attempt String Unit)) (fun _ => 1) =
      ([1, 2], 3, .error (some "boom")) := by
  have h := (C4_retry_controller
    (⟨3, 1, 60, 2, false, fun _ => true⟩ : Retry.RetryConfig String)
    (fun _ => (.err "boom" : Retry.Attempt String Unit)) (fun _ => 1) "boom"
    (fun _ => "boom")).2.2.2 (fun n _ _ => rfl) (fun n => rfl) (by decide)
  have h1 : Retry.calculate_delay
      (⟨3, 1, 60, 2, false, fun _ => true⟩ : Retry.RetryConfig String) (1 + 0) 1 = 1 := by
    simp [Retry.calculate_delay, min_def]
  have h2 : Retry.calculate_delay
      (⟨3, 1, 60, 2, false, fun _ => true⟩ : Retry.RetryConfig String) (1 + 1) 1 = 2 := by
    simp [Retry.calculate_delay, min_def]
    norm_num
  have hrange : List.range
      ((⟨3, 1, 60, 2, false, fun _ => true⟩ : Retry.RetryConfig String).max_attempts - 1) =
      [0, 1] := by decide
  rw [h, hrange]
  simp only [List.map_cons, List.map_nil]
  rw [h1, h2]

/-! ## Claim C6: the three-phase lifecycle and the shared-state contract -/

theorem output_key_ne_cursor (name : String) : name ++ "_output" ≠ "_prev_output_key" := by
  intro h
  have hd := congrArg (fun s : String => s.data.reverse.head?) h
  simp only [String.data_append, List.reverse_append] at hd
  rw [show ("_output".data.reverse) = 't' :: "uptuo_".data from by decide] at hd
  simp at hd

/-- C6 as stated is false on the code for validation nodes: the execute
phase of a `ValidationNode` returns the routing key, but `finalize`
stores the `{"input": ..., "routing_key": ...}` record — not the execute
result — under `"{name}_output"`. -/
theorem C6_counterexample :
    (ValidationNode.post_async "v" ([] : Shared) (.obj [("x", .num 1)]) "ok").2 = "ok" ∧
    getKey (ValidationNode.post_async "v" ([] : Shared) (.obj [("x", .num 1)]) "ok").1
        "v_output" =
      some (.obj [("input", .obj [("x", .num 1)]), ("routing_key", .str "ok")]) ∧
    (JVal.obj [("input", .obj [("x", .num 1)]), ("routing_key", .str "ok")]) ≠
      .str "ok" := by
  refine ⟨rfl, by decide, by decide⟩

/-- C6 amended: only finalize mutates the shared state (the prepare
phases return it untouched) and every finalize writes under
`"{name}_output"` and points `"_prev_output_key"` at that key; MCP and
transform nodes store the execute result unchanged, while validation and
routing nodes store the `{"input", "routing_key"}` record wrapping it. -/
theorem C6_lifecycle (name next_node : String) (sh : Shared) (result prep_res : JVal)
    (rk : String) :
    (MCPNode.prep_async name sh).1 = sh ∧
    (ValidationNode.prep_async name sh).1 = sh ∧
    (getKey (MCPNode.post_async name sh result).1 (name ++ "_output") = some result ∧
      getKey (MCPNode.post_async name sh result).1 "_prev_output_key" =
        some (.str (name ++ "_output"))) ∧
    (getKey (TransformNode.post_async name next_node sh result).1 (name ++ "_output") =
        some result ∧
      getKey (TransformNode.post_async name next_node sh result).1 "_prev_output_key" =
        some (.str (name ++ "_output"))) ∧
    (getKey (ValidationNode.post_async name sh prep_res rk).1 (name ++ "_output") =
        some (.obj [("input", prep_res), ("routing_key", .str rk)]) ∧
      getKey (ValidationNode.post_async name sh prep_res rk).1 "_prev_output_key" =
        some (.str (name ++ "_output"))) := by
  refine ⟨rfl, rfl, ⟨?_, ?_⟩, ⟨?_, ?_⟩, ⟨?_, ?_⟩⟩
  · simp only [MCPNode.post_async, getKey, setKey]
    rw [dictGet_set_ne _ _ _ (output_key_ne_cursor name) _]
    exact dictGet_set_self _ _ _
  · simp only [MCPNode.post_async, getKey, setKey]
    exact dictGet_set_self _ _ _
  · simp only [TransformNode.post_async, getKey, setKey]
    rw [dictGet_set_ne _ _ _ (output_key_ne_cursor name) _]
    exact dictGet_set_self _ _ _
  · simp only [TransformNode.post_async, getKey, setKey]
    exact dictGet_set_self _ _ _
  · simp only [ValidationNode.post_async, getKey, setKey]
    rw [dictGet_set_ne _ _ _ (output_key_ne_cursor name) _]
    exact dictGet_set_self _ _ _
  · simp only [ValidationNode.post_async, getKey, setKey]
    exact dictGet_set_self _ _ _

end Yenta
